import Mathlib

/-!
Verification of the SuRF (Succinct Range Filter) implementation.

This file contains a shallow embedding, in Lean 4, of the Go sources of the
`surf` repository: the key utilities (`louds/key.go`), the bitmap with
rank and select (`bitmap/bitmap.go`), the LOUDS-DENSE builder
(`louds/dense/builder.go`), the trie iterator (`store/iterator.go`) and the
SuRF facade (`store/surf.go`), together with proofs and refutations of the
stated correctness properties.

Modelling conventions:
* A Go `[]byte` key is a `List Nat`; well-formedness hypotheses carry the
  fact that every byte is < 256 where it matters (in Go this holds by the
  type `byte`).
* The bitmap's backing array of 64-bit words is modelled at bit granularity:
  the logical bit sequence `bits : List Bool`, where word `w` of the Go
  slice corresponds to the 64-bit chunk `(bits.drop (64*w)).take 64`
  (bit 0 of the logical bitmap is the most significant bit of word 0).
  `bits.OnesCount64` of a word is the number of `true` entries of its chunk,
  and the mask operations of `bitops` select sub-ranges of a chunk.
* Go loops are folds or fuel-indexed recursions.  Wherever fuel is used the
  wrapper passes a bound that is provably at least the number of iterations
  the Go loop performs, and fuel-adequacy lemmas are proved where theorems
  need them.
* Functions that return a Go `error` return `Except` values; mutation of a
  pointer receiver becomes explicit state passing.
* Out-of-range slice indexing would panic in Go; the embedding totalises
  such reads with default values.  All theorems about runs that Go could
  actually perform carry hypotheses ruling the defaults out.
-/

namespace Surf

/-- A key, as in `louds/key.go`: a sequence of bytes. -/
abbrev Key := List Nat

/-- `Key.Less` from `louds/key.go`: lexicographic comparison, byte by byte;
on a shared prefix the shorter key is lesser. -/
def Key.less : Key → Key → Bool
  | [], [] => false
  | [], _ :: _ => true
  | _ :: _, [] => false
  | x :: xs, y :: ys =>
    if x < y then true
    else if y < x then false
    else Key.less xs ys

/-- `FirstDifferenceAt` from `louds/key.go`: first index at which the two
byte slices differ.  Returns `(false, 0)` when equal; if one is a strict
prefix of the other the first byte of the longer counts as the difference. -/
def firstDifferenceAt : List Nat → List Nat → Bool × Nat
  | [], [] => (false, 0)
  | [], _ :: _ => (true, 0)
  | _ :: _, [] => (true, 0)
  | a :: as, b :: bs =>
    if a ≠ b then (true, 0)
    else
      match firstDifferenceAt as bs with
      | (true, i) => (true, i + 1)
      | (false, _) => (false, 0)

/-- The neighbour bound used inside `Truncate`: the first index at which
`key` differs from `other`, or `key.length` when the two do not differ. -/
def diffBound (key other : Key) : Nat :=
  match firstDifferenceAt key other with
  | (true, i) => i
  | (false, _) => key.length

/-- `Truncate` from `louds/key.go`: each key is cut down to a shortest
prefix distinguishing it from both neighbours.  A missing neighbour leaves
the corresponding first-difference variable at its zero value, as in Go. -/
def truncate (keys : List Key) : List Key :=
  keys.mapIdx fun i key =>
    let firstDifferenceBefore : Nat :=
      if i ≠ 0 then diffBound key (keys.getD (i - 1) []) else 0
    let firstDifferenceAfter : Nat :=
      if i ≠ keys.length - 1 then diffBound key (keys.getD (i + 1) []) else 0
    let n := if firstDifferenceBefore < firstDifferenceAfter then
        firstDifferenceAfter
      else firstDifferenceBefore
    let n' := if n < key.length then n + 1 else n
    key.take n'

/-! ## Bitmap (`bitmap/bitmap.go`)

The Go struct keeps `Capacity` (maximum number of addressable bits),
`length` (number of bits currently backed by allocated words, always a
multiple of 64) and `data []uint64`.  Here `bits` is the logical content of
`data`, so `bits.length` plays the role of the Go `length` field. -/

/-- The number of Go errors the bitmap can produce; callers of the bitmap
only ever test errors for being non-nil, so an enumeration suffices. -/
inductive BmpError where
  /-- index outside `[0, capacity)` (`Set`, `Unset`, `Get`) -/
  | invalidIndex : BmpError
  /-- a rank/select value argument other than 0 or 1 -/
  | invalidValue : BmpError
  /-- rank index outside `[0, length)` -/
  | rankOutOfRange : BmpError
  /-- select `nth` outside `(0, length]` -/
  | nthOutOfRange : BmpError
  /-- select ran out of data (the `idx > bm.length` branch) -/
  | insufficientBits : BmpError
deriving Repr, DecidableEq

/-- The bitmap of `bitmap/bitmap.go`, at bit granularity. -/
structure Bitmap where
  capacity : Nat
  bits : List Bool
deriving Repr, DecidableEq

/-- The Go `length` field: number of bits backed by allocated words. -/
def Bitmap.length (bm : Bitmap) : Nat := bm.bits.length

/-- `New` from `bitmap/bitmap.go`: `ceil(size/64)` words are allocated, so
the initial length is that many times 64. -/
def Bitmap.new (size capacity : Nat) : Bitmap :=
  let dataSize := size / 64 + (if size % 64 ≠ 0 then 1 else 0)
  { capacity := capacity, bits := List.replicate (dataSize * 64) false }

/-- `resize`: grow the word array so that bits `[0, bit)` are accessible,
clamping the request to the capacity.  New words are zero-filled.  (Go
tracks `length` separately from the slice; on every call the exported
operations make, the rounded target is at least the current length, so
appending zero bits is the same thing.) -/
def Bitmap.resize (bm : Bitmap) (bit : Nat) : Bitmap :=
  if bit < bm.length then bm
  else
    let bit := min bit bm.capacity
    let newLength := bit / 64 + (if bit % 64 ≠ 0 then 1 else 0)
    if bm.bits.length < newLength * 64 then
      { bm with bits := bm.bits ++ List.replicate (newLength * 64 - bm.bits.length) false }
    else bm

/-- `Set`: set the bit at `bit` to 1, auto-growing within the capacity.
(The Go guard `bit < 0` cannot fire for a `Nat` index.) -/
def Bitmap.set (bm : Bitmap) (bit : Nat) : Except BmpError Bitmap :=
  if bit ≥ bm.capacity then .error .invalidIndex
  else
    let bm := if bit ≥ bm.length then bm.resize (bit + 1) else bm
    .ok { bm with bits := bm.bits.set bit true }

/-- `Unset`: set the bit at `bit` to 0, auto-growing within the capacity. -/
def Bitmap.unset (bm : Bitmap) (bit : Nat) : Except BmpError Bitmap :=
  if bit ≥ bm.capacity then .error .invalidIndex
  else
    let bm := if bit ≥ bm.length then bm.resize (bit + 1) else bm
    .ok { bm with bits := bm.bits.set bit false }

/-- `Get`: read the bit at `bit` as 0 or 1, auto-growing within the
capacity (the read of a bit beyond the current length forces allocation,
which is observable, so the grown bitmap is returned alongside). -/
def Bitmap.get (bm : Bitmap) (bit : Nat) : Except BmpError (Bitmap × Nat) :=
  if bit ≥ bm.capacity then .error .invalidIndex
  else
    let bm := if bit ≥ bm.length then bm.resize (bit + 1) else bm
    .ok (bm, if bm.bits.getD bit false then 1 else 0)

/-- `bits.OnesCount64` of a word, i.e. the number of set bits of a chunk. -/
def countTrue (l : List Bool) : Nat := l.count true

/-- One pass of the `Rank` loop (`for i := 0; i <= idx; i += 64`): `i` is
the first bit of the word under consideration and `cnt` the running count.
The fuel passed by `rank` equals the number of iterations of the Go loop. -/
def rankLoop (checkOnes : Bool) (bits : List Bool) (idx : Nat) :
    Nat → Nat → Nat → Nat
  | 0, _, cnt => cnt
  | fuel + 1, i, cnt =>
    if i ≤ idx then
      let word := (bits.drop i).take 64
      let fullBlock := i + 63 < idx
      let onesCount := if fullBlock then countTrue word
        else countTrue (word.take (idx - i + 1))
      let cnt := if checkOnes then cnt + onesCount
        else if fullBlock then cnt + (64 - onesCount)
        else cnt + (idx - i + 1 - onesCount)
      rankLoop checkOnes bits idx fuel (i + 64) cnt
    else cnt

/-- `Rank` from `bitmap/bitmap.go`: the number of bits of value `val` in
positions `[0, idx]`. -/
def Bitmap.rank (bm : Bitmap) (val idx : Nat) : Except BmpError Nat :=
  if idx ≥ bm.length then .error .rankOutOfRange
  else if ¬(val = 0 ∨ val = 1) then .error .invalidValue
  else .ok (rankLoop (val = 1) bm.bits idx (idx / 64 + 1) 0 0)

/-- The word-scanning loop of `Select`: starting at word offset `idx` with
running count `count`, scan while adding the next word's count would stay
below `nth`; stop (returning the pair `(count, idx)` of the Go variables)
as soon as the current word would reach or pass `nth`, or when the data
runs out.  The fuel passed by `select` equals the number of words. -/
def selectScan (checkOnes : Bool) (bits : List Bool) (nth : Nat) :
    Nat → Nat → Nat → Nat × Nat
  | 0, idx, count => (count, idx)
  | fuel + 1, idx, count =>
    if idx < bits.length then
      let word := (bits.drop idx).take 64
      let additionalCount := if checkOnes then countTrue word
        else 64 - countTrue word
      if count + additionalCount ≥ nth then (count, idx)
      else selectScan checkOnes bits nth fuel (idx + 64) (count + additionalCount)
    else (count, idx)

/-- The bit-by-bit finishing loop of `Select` (`for count < nth`): reads
single bits through `Get` — which can auto-grow the bitmap — until the
count reaches `nth`, then reports `idx - 1`.  A `Get` failure aborts with
its error.  The fuel passed by `select` bounds the iterations: each
successful `Get` needs `idx < capacity`, so the loop runs at most
`capacity + 1` times before failing. -/
def selectFinish (checkOnes : Bool) (nth : Nat) :
    Nat → Bitmap → Nat → Nat → Except BmpError (Bitmap × Nat)
  | 0, bm, _, idx => .ok (bm, idx - 1)
  | fuel + 1, bm, count, idx =>
    if count < nth then
      match bm.get idx with
      | .error e => .error e
      | .ok (bm, v) =>
        let count := if (v = 1 ∧ checkOnes) ∨ (v = 0 ∧ ¬checkOnes) then count + 1
          else count
        selectFinish checkOnes nth fuel bm count (idx + 1)
    else .ok (bm, idx - 1)

/-- `Select` from `bitmap/bitmap.go`: position of the `nth` bit of value
`val` (1-based `nth`).  First scans word by word, then finishes bit by bit
inside the word where the running count would reach `nth`. -/
def Bitmap.select (bm : Bitmap) (val nth : Nat) : Except BmpError (Bitmap × Nat) :=
  if ¬(val = 0 ∨ val = 1) then .error .invalidValue
  else if nth = 0 ∨ nth > bm.length then .error .nthOutOfRange
  else
    let checkOnes := val = 1
    let scan := selectScan checkOnes bm.bits nth (bm.length / 64 + 1) 0 0
    let count := scan.1
    let idx := scan.2
    if idx > bm.length then .error .insufficientBits
    else selectFinish checkOnes nth (bm.capacity + 1) bm count idx

/-- `Equal` from `bitmap/bitmap.go`: lengths and contents must agree;
capacities are not compared. -/
def Bitmap.equal (bm other : Bitmap) : Bool :=
  bm.bits = other.bits

/-! ## LOUDS-DENSE builder (`louds/dense/builder.go`) -/

/-- `NodeTask`: keys whose path passes through a future node, plus whether
that node must carry the is-prefix-key flag. -/
structure NodeTask where
  keys : List Key
  isPrefixKey : Bool
deriving Repr, DecidableEq

/-- The builder state.  The Go struct also holds the task queue and the
`currentTask` pointer; in the embedding, the queue is passed through the
build functions explicitly, and `currentTask` (always the most recently
appended task) is the last element of the accumulated child-task list.
`anyOpFailed` is a ghost field not present in Go: it records whether any
bitmap `Set`/`Get` performed during the build returned an error — including
the one error whose result the Go code discards. -/
structure Builder where
  labels : Bitmap
  hasChild : Bitmap
  isPrefixKey : Bitmap
  currentNodeId : Nat
  anyOpFailed : Bool
deriving Repr, DecidableEq

/-- `NewBuilder`: the memory limit in bits is divided by the per-node cost
(256 + 256 + 1) to obtain the node capacity. -/
def newBuilder (memoryLimit : Nat) : Builder :=
  let memoryUnit := memoryLimit / (256 + 256 + 1)
  { labels := Bitmap.new 256 (256 * memoryUnit)
    hasChild := Bitmap.new 256 (256 * memoryUnit)
    isPrefixKey := Bitmap.new 1 memoryUnit
    currentNodeId := 0
    anyOpFailed := false }

/-- `NodeCapacity`. -/
def Builder.nodeCapacity (b : Builder) : Nat := b.isPrefixKey.capacity

/-- `labelOffset`. -/
def Builder.labelOffset (b : Builder) : Nat := b.currentNodeId * 256

/-- `hasChildOffset`. -/
def Builder.hasChildOffset (b : Builder) : Nat := b.currentNodeId * 256

/-- `isPrefixKeyOffset`. -/
def Builder.isPrefixKeyOffset (b : Builder) : Nat := b.currentNodeId

/-- `maxKeyLength`. -/
def maxKeyLength (keys : List Key) : Nat :=
  keys.foldl (fun m k => max m k.length) 0

/-- How `Build` exits early: either with the wrapped error of a failed
bitmap operation, or — in the one branch where the Go code mistakenly
returns `nil` on a `setHasChild` failure — with success. -/
inductive BuildExit where
  | err (e : BmpError) : BuildExit
  | success : BuildExit
deriving Repr, DecidableEq

/-- Mark the ghost failure flag. -/
def Builder.opFailed (b : Builder) : Builder := { b with anyOpFailed := true }

/-- `initializeNode`: reading the last bit of each of the three bitmap
extents of the node being built forces their allocation.  The (growing)
reads are threaded through; the first error aborts. -/
def Builder.initializeNode (b : Builder) : Except BmpError Builder :=
  match b.labels.get (b.labelOffset + 255) with
  | .error e => .error e
  | .ok (lab, _) =>
    match b.hasChild.get (b.hasChildOffset + 255) with
    | .error e => .error e
    | .ok (hc, _) =>
      match b.isPrefixKey.get b.isPrefixKeyOffset with
      | .error e => .error e
      | .ok (ipk, _) =>
        .ok { b with labels := lab, hasChild := hc, isPrefixKey := ipk }

/-- Replace the last element of a list (the `currentTask` of the Go
builder; within `buildKeys` the list is never empty when this is used,
because the first key always appends a task first). -/
def modifyLast (f : α → α) : List α → List α
  | [] => []
  | [x] => [f x]
  | x :: y :: rest => x :: modifyLast f (y :: rest)

/-- The per-key loop body of `Build` (`for _, key := range task.keys`),
processing the keys of one node at the given depth.  `children` is the
list of `NodeTask`s this node has appended to the queue so far.  On an
`addEdge` failure, `Build` returns the wrapped error; on a `setHasChild`
failure, the Go code returns `nil` — early success — which the
`BuildExit.success` payload records.  The early-exit carries the builder
so the ghost flag survives. -/
def buildKeys (depth : Nat) :
    Builder → Bool → Nat → List NodeTask → List Key →
    Except (BuildExit × Builder) (Builder × List NodeTask)
  | b, _, _, children, [] => .ok (b, children)
  | b, nodeHasEdges, mostRecentEdge, children, key :: rest =>
    let edge := key.getD depth 0
    let step : Except (BuildExit × Builder) (Builder × List NodeTask × Nat) :=
      if ¬nodeHasEdges ∨ mostRecentEdge ≠ edge then
        match b.labels.set (b.labelOffset + edge) with
        | .error e => .error (.err e, b.opFailed)
        | .ok lab =>
          .ok ({ b with labels := lab }, children ++ [⟨[], false⟩], edge)
      else .ok (b, children, mostRecentEdge)
    match step with
    | .error x => .error x
    | .ok (b, children, mostRecentEdge) =>
      if depth = key.length - 1 then
        let children := modifyLast (fun t => { t with isPrefixKey := true }) children
        buildKeys depth b true mostRecentEdge children rest
      else
        match b.hasChild.set (b.hasChildOffset + edge) with
        | .error _ => .error (.success, b.opFailed)
        | .ok hc =>
          let b := { b with hasChild := hc }
          let children := modifyLast (fun t => { t with keys := t.keys ++ [key] }) children
          buildKeys depth b true mostRecentEdge children rest

/-- Processing of a single task of the current level: an empty task is
discarded; otherwise a node is emitted — bitmaps pre-extended, the
is-prefix-key flag set if requested (the Go code discards the result of
`setIsPrefixKey`, so only the ghost flag sees a failure there), the keys
scanned, and the node counter incremented. -/
def buildTask (depth : Nat) (b : Builder) (task : NodeTask) :
    Except (BuildExit × Builder) (Builder × List NodeTask) :=
  if task.keys = [] then .ok (b, [])
  else
    match b.initializeNode with
    | .error e => .error (.err e, b.opFailed)
    | .ok b =>
      let b := if task.isPrefixKey then
          match b.isPrefixKey.set b.isPrefixKeyOffset with
          | .error _ => b.opFailed
          | .ok ipk => { b with isPrefixKey := ipk }
        else b
      match buildKeys depth b false 0 [] task.keys with
      | .error x => .error x
      | .ok (b, children) =>
        .ok ({ b with currentNodeId := b.currentNodeId + 1 }, children)

/-- One level of `Build`: the first `n` tasks (the whole current queue,
frozen) are processed in order, collecting the appended child tasks. -/
def buildLevel (depth : Nat) :
    Builder → List NodeTask → List NodeTask →
    Except (BuildExit × Builder) (Builder × List NodeTask)
  | b, acc, [] => .ok (b, acc)
  | b, acc, t :: ts =>
    match buildTask depth b t with
    | .error x => .error x
    | .ok (b, children) => buildLevel depth b (acc ++ children) ts

/-- The depth loop of `Build` (`for depth := 0; depth < maxKeyLength`),
with the number of remaining levels as the structural counter. -/
def buildLoop (b : Builder) (tasks : List NodeTask) (depth : Nat) :
    Nat → Builder × Option BmpError
  | 0 => (b, none)
  | levels + 1 =>
    match buildLevel depth b [] tasks with
    | .error (.err e, b) => (b, some e)
    | .error (.success, b) => (b, none)
    | .ok (b, nextTasks) => buildLoop b nextTasks (depth + 1) levels

/-- `Build` from `louds/dense/builder.go`: seed the queue with one task
holding all keys, then process level by level.  Returns the final builder
together with the error `Build` returns (`none` = nil). -/
def Builder.build (b : Builder) (keys : List Key) : Builder × Option BmpError :=
  buildLoop b [⟨keys, false⟩] 0 (maxKeyLength keys)

/-! ## Stack (`stack/stack.go`) -/

/-- The generic stack: a slice, pushed and popped at the end. -/
structure Stack (α : Type) where
  data : List α
deriving Repr, DecidableEq

/-- `Push`. -/
def Stack.push (s : Stack α) (x : α) : Stack α := ⟨s.data ++ [x]⟩

/-- `Pop`: removes and returns the last element.  Go panics on an empty
stack; the embedding returns a default, which no verified run reaches
(the iterator pops only with a non-root node index, when the stacks are
non-empty). -/
def Stack.pop [Inhabited α] (s : Stack α) : α × Stack α :=
  (s.data.getLastD default, ⟨s.data.dropLast⟩)

/-! ## Iterator (`store/iterator.go`, full revision with `Next`) -/

/-- The navigation errors of the store, plus the generic wrapper for
bitmap errors.  `outOfFuel` is a modelling artefact of the fuel-indexed
traversal loops; every evaluation used in a theorem is supplied enough
fuel never to reach it. -/
inductive StoreError where
  | noSuchEdge : StoreError
  | isLeaf : StoreError
  | endOfTrie : StoreError
  | generic (e : BmpError) : StoreError
  | outOfFuel : StoreError
deriving Repr, DecidableEq

/-- The iterator: borrowed bitmaps, current node, traversal stacks and the
next edge to try. -/
structure Iterator where
  labels : Bitmap
  hasChild : Bitmap
  isPrefixKey : Bitmap
  nodeIndex : Nat := 0
  nodes : Stack Nat := ⟨[]⟩
  nextEdge : Nat := 0
  edges : Stack Nat := ⟨[]⟩
  keyPrefix : Stack Nat := ⟨[]⟩
deriving Repr, DecidableEq

/-- `GoToChild`: move down the edge with the given value.  In Go the
bitmaps are shared through pointers, so the auto-growing `Get`s mutate
them in place; on the trie walks this file reasons about, every offset
read is below the allocated length, so no growth occurs and threading the
bitmaps through the success path is equivalent. -/
def Iterator.goToChild (it : Iterator) (edge : Nat) : Except StoreError Iterator :=
  let offset := 256 * it.nodeIndex + edge
  match it.labels.get offset with
  | .error e => .error (.generic e)
  | .ok (lab, hasLabel) =>
    let it := { it with labels := lab }
    if hasLabel ≠ 1 then .error .noSuchEdge
    else
      match it.hasChild.get offset with
      | .error e => .error (.generic e)
      | .ok (hc, hasChild) =>
        let it := { it with hasChild := hc }
        if hasChild ≠ 1 then .error .isLeaf
        else
          match it.hasChild.rank 1 offset with
          | .error e => .error (.generic e)
          | .ok nextNode =>
            .ok { it with
                  keyPrefix := it.keyPrefix.push edge
                  nodes := it.nodes.push it.nodeIndex
                  edges := it.edges.push edge
                  nodeIndex := nextNode
                  nextEdge := 0 }

/-- The body of `Next`: depth-first search for the next key.  The two Go
loops (the endless outer loop and the edge loop `for ; it.nextEdge < 256;
it.nextEdge++`) become one fuel-indexed recursion; note that after a
successful descent that does not yield a prefix key, the Go `for` loop's
post-statement increments the freshly reset `nextEdge` of the *new* node
from 0 to 1 before the next probe. -/
def Iterator.nextAux : Nat → Iterator → Except StoreError (Key × Iterator)
  | 0, _ => .error .outOfFuel
  | fuel + 1, it =>
    if it.nextEdge < 256 then
      match it.goToChild it.nextEdge with
      | .error .noSuchEdge => Iterator.nextAux fuel { it with nextEdge := it.nextEdge + 1 }
      | .error .isLeaf =>
        let key := it.keyPrefix.data ++ [it.nextEdge]
        .ok (key, { it with nextEdge := it.nextEdge + 1 })
      | .error e => .error e
      | .ok it' =>
        match it'.isPrefixKey.get it'.nodeIndex with
        | .error e => .error (.generic e)
        | .ok (ipk, v) =>
          let it' := { it' with isPrefixKey := ipk }
          if v = 1 then .ok (it'.keyPrefix.data, it')
          else Iterator.nextAux fuel { it' with nextEdge := it'.nextEdge + 1 }
    else
      if it.nodeIndex = 0 then .error .endOfTrie
      else
        let pn := it.nodes.pop
        let pe := it.edges.pop
        let pk := it.keyPrefix.pop
        Iterator.nextAux fuel
          { it with nodeIndex := pn.1, nodes := pn.2,
                    nextEdge := pe.1 + 1, edges := pe.2, keyPrefix := pk.2 }

/-- Ample fuel for one `Next` call: the depth-first scan probes each of
the 256 edges of each allocated node block at most twice (once descending,
once after ascending back), plus slack. -/
def Iterator.nextFuel (it : Iterator) : Nat :=
  520 * (it.labels.bits.length + 257)

/-- `Next` from `store/iterator.go`: move to and return the next key in
depth-first order. -/
def Iterator.next (it : Iterator) : Except StoreError (Key × Iterator) :=
  Iterator.nextAux it.nextFuel it

/-! ## SuRF facade (`store/surf.go`) -/

/-- The SuRF store: the stored option fields and the three LOUDS-DENSE
bitmaps. -/
structure SURF where
  r : Nat
  hashBits : Nat
  realBits : Nat
  denseLabels : Bitmap
  denseHasChild : Bitmap
  denseIsPrefixKey : Bitmap
deriving Repr, DecidableEq

/-- The byte-walking loop of the unexported `lookup`: descend one key byte
at a time; `i` counts the consumed bytes of `key` for the `key[:i+1]`
result of the leaf case. -/
def lookupWalk (key : Key) : Nat → Iterator → List Nat →
    Bool × Key × Iterator × Option StoreError
  | _, it, [] =>
    match it.isPrefixKey.get it.nodeIndex with
    | .error e => (false, [], it, some (.generic e))
    | .ok (ipk, v) =>
      let it := { it with isPrefixKey := ipk }
      if v = 1 then (true, key, it, none) else (false, [], it, none)
  | i, it, keyByte :: rest =>
    match it.goToChild keyByte with
    | .error .noSuchEdge => (false, [], it, none)
    | .error .isLeaf => (true, key.take (i + 1), it, none)
    | .error e => (false, [], it, some e)
    | .ok it => lookupWalk key (i + 1) it rest

/-- The unexported `lookup` of `store/surf.go`: existence, the matched
(possibly truncated) key, and the iterator state at termination. -/
def SURF.lookup (surf : SURF) (key : Key) : Bool × Key × Iterator × Option StoreError :=
  let it : Iterator :=
    { labels := surf.denseLabels
      hasChild := surf.denseHasChild
      isPrefixKey := surf.denseIsPrefixKey }
  lookupWalk key 0 it key

/-- The exported `Lookup`: the existence bit of `lookup`. -/
def SURF.Lookup (surf : SURF) (key : Key) : Bool × Option StoreError :=
  let r := surf.lookup key
  (r.1, r.2.2.2)

/-- `lookupOrGreater` from `store/surf.go`: the matched key if `lookup`
succeeds — with `nextEdge` nudged past the match — else the key produced
by `Next` from where the lookup stopped. -/
def SURF.lookupOrGreater (surf : SURF) (key : Key) :
    Key × Iterator × Option StoreError :=
  let r := surf.lookup key
  let exists' := r.1
  let matchedKey := r.2.1
  let it := r.2.2.1
  match r.2.2.2 with
  | some e => ([], it, some e)
  | none =>
    if exists' then
      (matchedKey, { it with nextEdge := it.nextEdge + 1 }, none)
    else
      match it.next with
      | .error e => ([], it, some e)
      | .ok (largerKey, it) => (largerKey, it, none)

/-- `RangeLookup`: is some (believed) key in `[low, high]`? -/
def SURF.RangeLookup (surf : SURF) (low high : Key) : Bool × Option StoreError :=
  let r := surf.lookupOrGreater low
  match r.2.2 with
  | some .endOfTrie => (false, none)
  | some e => (false, some e)
  | none =>
    if Key.less r.1 high ∨ r.1 = high then (true, none) else (false, none)

/-- The counting loop of `Count` (`for curKey ≤ highKey`): one `Next` per
counted key.  A non-`EndOfTrie` iteration error makes the Go code return
`0, nil`, which the embedding mirrors. -/
def countLoop (high : Key) : Nat → Iterator → Key → Nat → Nat × Option StoreError
  | 0, _, _, _ => (0, some .outOfFuel)
  | fuel + 1, it, curKey, count =>
    if Key.less curKey high ∨ curKey = high then
      let count := count + 1
      match it.next with
      | .error .endOfTrie => (count, none)
      | .error _ => (0, none)
      | .ok (nextKey, it) => countLoop high fuel it nextKey count
    else (count, none)

/-- `Count` from `store/surf.go`: approximate number of keys in
`[low, high]`. -/
def SURF.Count (surf : SURF) (low high : Key) : Nat × Option StoreError :=
  let r := surf.lookupOrGreater low
  match r.2.2 with
  | some .endOfTrie => (0, none)
  | some e => (0, some e)
  | none =>
    countLoop high (520 * (surf.denseLabels.bits.length + 257) * 300)
      r.2.1 r.1 0

/-- Insertion of one key into a sorted list, ordered by `Key.less`. -/
def insertKey (k : Key) : List Key → List Key
  | [] => [k]
  | x :: xs => if Key.less k x then k :: x :: xs else x :: insertKey k xs

/-- The sort `New` performs through `slices.SortFunc` with `Key.less`.
`SortFunc` is an external library routine; since `Key.less` is a strict
total order on byte strings (and equal keys are identical), every correct
sort produces the same list, so insertion sort models it exactly. -/
def sortKeys (keys : List Key) : List Key := keys.foldr insertKey []

/-- `New` from `store/surf.go`: copy and sort the keys, truncate them,
run the dense builder with the configured memory limit, and keep the three
bitmaps.  The option fields `R`, `HashBits` and `RealBits` default to 64,
4 and 4.  The `MemoryLimit` option's declaration is in a source file that
did not survive; it is passed here as an explicit argument. -/
def new (rawKeys : List Key) (memoryLimit : Nat) : Except BmpError SURF :=
  let keys := truncate (sortKeys rawKeys)
  let builder := newBuilder memoryLimit
  match builder.build keys with
  | (_, some e) => .error e
  | (b, none) =>
    .ok { r := 64, hashBits := 4, realBits := 4
          denseLabels := b.labels
          denseHasChild := b.hasChild
          denseIsPrefixKey := b.isPrefixKey }

/-- Modelled from the spec: the default `MemoryLimit` (the options file
declaring it is missing from the sources; §6 of the specification allows
"generous defaults, e.g. 80 Mbit", and the demo harness uses 80,000,000
bits). -/
def defaultMemoryLimit : Nat := 80000000

/-- The length to which `Truncate` cuts one key: the larger of the two
neighbour bounds, plus one when the key is longer than that.
(`truncate` below is definitionally `mapIdx` of this; the separate
definition names the arithmetic for the proofs.) -/
def truncBound (len pa sa : Nat) : Nat :=
  let n := if pa < sa then sa else pa
  if n < len then n + 1 else n

/-! ## Declarative statements of the specified properties -/

/-- The truncation formula exactly as the specification words it: `d⁻` is
the first byte index at which `k` differs from its predecessor, **or
`len(k)` if there is no difference or no predecessor**, `d⁺` likewise for
the successor, `n = max(d⁻, d⁺)`, and the output is
`k[0 .. min(n+1, len(k))]`.  (Stated for comparison with `truncate`.) -/
def truncateSpec (keys : List Key) : List Key :=
  keys.mapIdx fun i key =>
    let dminus := if i = 0 then key.length else diffBound key (keys.getD (i - 1) [])
    let dplus :=
      if i = keys.length - 1 then key.length else diffBound key (keys.getD (i + 1) [])
    let n := max dminus dplus
    key.take (min (n + 1) key.length)

/-- The truncation formula with the neighbour defaults the code actually
uses: a missing neighbour contributes `0` (the Go zero value), not
`len(k)`; only a comparison that finds **no difference** contributes
`len(k)`. -/
def truncateAmended (keys : List Key) : List Key :=
  keys.mapIdx fun i key =>
    let dminus := if i = 0 then 0 else diffBound key (keys.getD (i - 1) [])
    let dplus :=
      if i = keys.length - 1 then 0 else diffBound key (keys.getD (i + 1) [])
    let n := max dminus dplus
    key.take (min (n + 1) key.length)

/-- The value of bit `i` of a bitmap's logical content (0 when the bit is
not backed by an allocated word). -/
def Bitmap.bitAt (bm : Bitmap) (i : Nat) : Nat :=
  if bm.bits.getD i false then 1 else 0

/-! ## The declarative LOUDS-DENSE trie of a key set

The navigation claims speak about "the level-order node id the builder
assigned".  The following definitions spell that trie out directly from
the key set: the nodes of level `d` are the distinct `d`-byte prefixes of
keys longer than `d` bytes (in sorted order, which for a sorted key list
is the order the builder scans them in), and the level-order node id of a
prefix is its position in the concatenation of the levels. -/

/-- Adjacent deduplication; on a sorted list this removes all
duplicates. -/
def dedupAdjacent {α : Type} [DecidableEq α] : List α → List α
  | [] => []
  | [p] => [p]
  | p :: q :: rest =>
    if p = q then dedupAdjacent (q :: rest) else p :: dedupAdjacent (q :: rest)

/-- The prefixes giving rise to the trie nodes of level `d`: the distinct
`take d` of keys longer than `d`. -/
def nodesAtLevel (keys : List Key) (d : Nat) : List Key :=
  dedupAdjacent ((keys.filter (fun k => decide (d < k.length))).map (fun k => k.take d))

/-- Number of nodes at levels `0 .. d-1`, i.e. the id of the first node of
level `d`. -/
def nodesUpTo (keys : List Key) (d : Nat) : Nat :=
  ((List.range d).map (fun e => (nodesAtLevel keys e).length)).sum

/-- All trie nodes in level order: the position of a prefix in this list
is its level-order node id. -/
def allNodes (keys : List Key) : List Key :=
  (List.range (maxKeyLength keys)).flatMap (nodesAtLevel keys)

/-- The declarative D-Labels bit of node prefix `p` and edge `e`: some key
starts with `p` followed by byte `e`. -/
def hasEdgeB (keys : List Key) (p : Key) (e : Nat) : Bool :=
  keys.any (fun k => (p ++ [e]).isPrefixOf k)

/-- The declarative D-HasChild bit: some key strictly extends `p ++ [e]`,
so the edge leads to a subtree rather than a terminal value. -/
def hasChildB (keys : List Key) (p : Key) (e : Nat) : Bool :=
  keys.any (fun k => (p ++ [e]).isPrefixOf k && decide (p.length + 1 < k.length))

/-- The edges of node `p` that carry the has-child flag, in scan order. -/
def hasChildEdges (keys : List Key) (p : Key) : List Nat :=
  (List.range 256).filter (fun e => hasChildB keys p e)

/-- All child prefixes in the scan order of set has-child bits: nodes in
level order, and within each node the set bits in edge order.  The
navigation claim's bijection says this enumeration lists exactly the
non-root nodes, in id order. -/
def childList (keys : List Key) : List Key :=
  (allNodes keys).flatMap (fun p => (hasChildEdges keys p).map (fun e => p ++ [e]))

/-- The number of set has-child bits in the blocks of nodes `0 .. n-1`. -/
def childrenBefore (keys : List Key) : Nat → Nat
  | 0 => 0
  | n + 1 => childrenBefore keys n + (hasChildEdges keys ((allNodes keys).getD n [])).length

/-- The builder task that processes node `p` of level `d`: the keys routed
through the node, and whether a key ends exactly on it. -/
def taskFor (keys : List Key) (d : Nat) (p : Key) : NodeTask :=
  ⟨keys.filter (fun k => decide (k.take d = p) && decide (d < k.length)),
   keys.contains p⟩

/-- Adjacent grouping of keys by their byte at position `d` (mirroring the
builder's `mostRecentEdge` bookkeeping). -/
def groupByEdge (d : Nat) : List Key → List (Nat × List Key)
  | [] => []
  | k :: ks =>
    match groupByEdge d ks with
    | [] => [(k.getD d 0, [k])]
    | (e, g) :: rest =>
      if k.getD d 0 = e then (k.getD d 0, k :: g) :: rest
      else (k.getD d 0, [k]) :: (e, g) :: rest

/-- The child task one edge group gives rise to: the keys that continue
past this level, and the prefix-key flag when a key ends just behind the
edge. -/
def childTask (d : Nat) (g : Nat × List Key) : NodeTask :=
  ⟨g.2.filter (fun k => !decide (d = k.length - 1)),
   g.2.any (fun k => decide (d = k.length - 1))⟩

/-- The task-queue effect of the builder's per-key loop, separated from
its bitmap effect: the children appended (and modified) by `buildKeys`,
as a pure function of the scanned keys. -/
def appendGroups (d : Nat) : Bool → Nat → List NodeTask → List Key → List NodeTask
  | _, _, ch, [] => ch
  | he, mre, ch, k :: rest =>
    let e := k.getD d 0
    let ch₁ := if ¬he = true ∨ mre ≠ e then ch ++ [⟨[], false⟩] else ch
    let ch₂ := if d = k.length - 1 then
        modifyLast (fun t => { t with isPrefixKey := true }) ch₁
      else modifyLast (fun t => { t with keys := t.keys ++ [k] }) ch₁
    appendGroups d true e ch₂ rest

/-- Merging a run of keys (one edge group, scanned at depth `d`) into an
already-started child task: the continuing keys are appended and the
prefix-key flag absorbs any ending key.  (Used to state what the per-key
loop does to the task whose edge group is still open.) -/
def mergeTask (d : Nat) (t : NodeTask) (g : List Key) : NodeTask :=
  ⟨t.keys ++ g.filter (fun k => !decide (d = k.length - 1)),
   t.isPrefixKey || g.any (fun k => decide (d = k.length - 1))⟩

/-- Word-rounding of a bit count, as `resize` performs it. -/
def roundW (n : Nat) : Nat := (n / 64 + (if n % 64 ≠ 0 then 1 else 0)) * 64

/-- The bookkeeping state of a builder mid-build: the bitmap lengths are
exactly the extents of the `currentNodeId` processed nodes (plus the
initial allocation), nothing is written at or beyond the write frontier,
and the processed extents fit the capacities. -/
def BState (b : Builder) : Prop :=
  b.labels.bits.length = max 256 (256 * b.currentNodeId) ∧
  b.hasChild.bits.length = max 256 (256 * b.currentNodeId) ∧
  b.isPrefixKey.bits.length = max 64 (roundW b.currentNodeId) ∧
  (∀ i, 256 * b.currentNodeId ≤ i → b.labels.bits.getD i false = false) ∧
  (∀ i, 256 * b.currentNodeId ≤ i → b.hasChild.bits.getD i false = false) ∧
  (∀ i, b.currentNodeId ≤ i → b.isPrefixKey.bits.getD i false = false) ∧
  (0 < b.currentNodeId →
    256 * b.currentNodeId ≤ b.labels.capacity ∧
    256 * b.currentNodeId ≤ b.hasChild.capacity ∧
    b.currentNodeId ≤ b.isPrefixKey.capacity)

/-- The full induction invariant tying the builder at the start of level
`d` to the declarative trie of the (sorted) key set: the pending non-empty
tasks are the tasks of the level-`d` nodes in order, the node counter is
the first id of level `d`, and the bits written so far are the declarative
bits of the processed nodes. -/
def BuildInv (keys : List Key) (d : Nat) (b : Builder) (tasks : List NodeTask) : Prop :=
  BState b ∧
  tasks.filter (fun t => !decide (t.keys = [])) =
    (nodesAtLevel keys d).map (taskFor keys d) ∧
  b.currentNodeId = nodesUpTo keys d ∧
  (∀ m e, m < nodesUpTo keys d → e < 256 →
    b.labels.bits.getD (256 * m + e) false = hasEdgeB keys ((allNodes keys).getD m []) e) ∧
  (∀ m e, m < nodesUpTo keys d → e < 256 →
    b.hasChild.bits.getD (256 * m + e) false = hasChildB keys ((allNodes keys).getD m []) e) ∧
  (∀ m, m < nodesUpTo keys d →
    b.isPrefixKey.bits.getD m false = keys.contains ((allNodes keys).getD m []))

/-- The non-strict version of `Key.less`, the order in which `New` hands
the keys to the builder. -/
def lexLe (a b : Key) : Prop := Key.less a b = true ∨ a = b

/-- Decidable equality of `Except` results, used to evaluate the embedded
operations on concrete inputs. -/
instance {ε α : Type} [DecidableEq ε] [DecidableEq α] : DecidableEq (Except ε α) :=
  fun x y =>
  match x, y with
  | .ok a, .ok b =>
    if h : a = b then .isTrue (by rw [h]) else .isFalse (by simp [h])
  | .error a, .error b =>
    if h : a = b then .isTrue (by rw [h]) else .isFalse (by simp [h])
  | .ok _, .error _ => .isFalse (by simp)
  | .error _, .ok _ => .isFalse (by simp)

/-! ## Concrete instances used by witnesses and counterexamples -/

/-- A 128-bit bitmap (capacity 128) with bit 70 set. -/
def exBitmap70 : Bitmap :=
  ((Bitmap.new 128 128).set 70).toOption.getD (Bitmap.new 128 128)

/-- A bitmap whose 64 allocated bits are all ones but whose capacity (128)
leaves room for auto-growth. -/
def exBitmapOnes : Bitmap :=
  (List.range 64).foldl (fun bm i => (bm.set i).toOption.getD bm) (Bitmap.new 64 128)

/-- An empty placeholder store (used only as a `getD` default). -/
def zeroSURF : SURF := ⟨0, 0, 0, ⟨0, []⟩, ⟨0, []⟩, ⟨0, []⟩⟩

/-- The store built from the two keys `[0,0]` and `[0,1]`. -/
def exSurf2 : SURF := (new [[0, 0], [0, 1]] 1026).toOption.getD zeroSURF

/-- The store built from the two keys `[1,0,0]` and `[1,0,1]`. -/
def exSurf3 : SURF := (new [[1, 0, 0], [1, 0, 1]] 1539).toOption.getD zeroSURF

/-- The builder state after building the truncated key set
`[[0,0], [0,1]]`. -/
def exBuilder4 : Builder := ((newBuilder 1026).build [[0, 0], [0, 1]]).1

/-- A fresh iterator over that trie. -/
def exIter4 : Iterator :=
  { labels := exBuilder4.labels
    hasChild := exBuilder4.hasChild
    isPrefixKey := exBuilder4.isPrefixKey }

/-- The iterator after the first `Next` call. -/
def exIter4b : Iterator := ((exIter4.next).toOption.map Prod.snd).getD exIter4

/-- Wellformedness of a builder task queue: every key of every task holds
only byte values (`key[depth]` in Go reads a `byte`, so this is implicit
in the Go types). -/
def TasksWF (tasks : List NodeTask) : Prop :=
  ∀ t ∈ tasks, ∀ k ∈ t.keys, ∀ x ∈ k, x < 256

end Surf

/-! # Theorems -/

namespace Surf

theorem getD_eq_getElem (l : List α) (d : α) (i : Nat) (h : i < l.length) :
    l.getD i d = l[i] := by
  simp [List.getD, List.getElem?_eq_getElem h]

end Surf

namespace Surf

/-- C6, counterexample: on the sorted, duplicate-free input
`[[0,1], [1]]` the code truncates the first key to `[0]`, while the
specified formula — which uses `len(k)` for a missing predecessor —
would emit the whole key `[0,1]`. -/
theorem c6_truncation_formula_counterexample :
    truncate [[0, 1], [1]] = [[0], [1]] ∧
    truncateSpec [[0, 1], [1]] = [[0, 1], [1]] ∧
    truncate [[0, 1], [1]] ≠ truncateSpec [[0, 1], [1]] := by
  refine ⟨by decide, by decide, by decide⟩

/-- C6, amended: the truncation formula holds once a missing neighbour
contributes first-difference index `0` (the Go zero value) instead of
`len(k)`; `len(k)` is used only when a comparison finds no difference.
With that change the formula agrees with `Truncate` on every input. -/
theorem c6_truncation_formula_amended (keys : List Key) :
    truncate keys = truncateAmended keys := by
  unfold truncate truncateAmended
  apply List.ext_getElem (by simp)
  intro i h1 h2
  have hk : i < keys.length := by simpa using h1
  simp only [List.getElem_mapIdx]
  have hbefore :
      (if i ≠ 0 then diffBound keys[i] (keys.getD (i - 1) []) else 0) =
      (if i = 0 then 0 else diffBound keys[i] (keys.getD (i - 1) [])) := by
    by_cases h : i = 0 <;> simp [h]
  have hafter :
      (if i ≠ keys.length - 1 then diffBound keys[i] (keys.getD (i + 1) []) else 0) =
      (if i = keys.length - 1 then 0 else diffBound keys[i] (keys.getD (i + 1) [])) := by
    by_cases h : i = keys.length - 1 <;> simp [h]
  rw [hbefore, hafter]
  set dminus := if i = 0 then 0 else diffBound keys[i] (keys.getD (i - 1) []) with hdm
  set dplus := if i = keys.length - 1 then 0 else diffBound keys[i] (keys.getD (i + 1) [])
    with hdp
  have hmax : (if dminus < dplus then dplus else dminus) = max dminus dplus := by
    by_cases h : dminus < dplus
    · simp [h, Nat.max_eq_right (Nat.le_of_lt h)]
    · simp [h, Nat.max_eq_left (Nat.le_of_not_lt h)]
  rw [hmax]
  set n := max dminus dplus
  by_cases h : n < keys[i].length
  · have : min (n + 1) keys[i].length = n + 1 := Nat.min_eq_left h
    simp [h, this]
  · have hge : keys[i].length ≤ n := Nat.le_of_not_lt h
    have h1' : keys[i].take n = keys[i] := List.take_of_length_le hge
    have h2' : keys[i].take (min (n + 1) keys[i].length) = keys[i] := by
      rw [Nat.min_eq_right (by omega)]
      exact List.take_length _
    simp [h, h1', h2']

end Surf

namespace Surf

/-! ## Lexicographic order toolkit for `Key.less` -/

theorem Key.less_nil_right (a : Key) : Key.less a [] = false := by
  cases a <;> rfl

theorem Key.less_nil_cons (y : Nat) (ys : Key) : Key.less [] (y :: ys) = true := rfl

theorem Key.less_cons_iff {x y : Nat} {xs ys : Key} :
    Key.less (x :: xs) (y :: ys) = true ↔ x < y ∨ (x = y ∧ Key.less xs ys = true) := by
  simp only [Key.less]
  by_cases h1 : x < y
  · simp [h1]
  · by_cases h2 : y < x
    · simp [h1, h2]
      omega
    · have hxy : x = y := by omega
      simp [h1, h2, hxy]

theorem Key.less_irrefl (a : Key) : Key.less a a = false := by
  induction a with
  | nil => rfl
  | cons x xs ih => simp [Key.less, ih]

theorem Key.less_trans : ∀ {a b c : Key},
    Key.less a b = true → Key.less b c = true → Key.less a c = true
  | [], [], _, h1, _ => by cases h1
  | [], _ :: _, [], _, h2 => by rw [Key.less_nil_right] at h2; cases h2
  | [], _ :: _, _ :: _, _, _ => rfl
  | _ :: _, [], _, h1, _ => by rw [Key.less_nil_right] at h1; cases h1
  | _ :: _, _ :: _, [], _, h2 => by rw [Key.less_nil_right] at h2; cases h2
  | x :: xs, y :: ys, z :: zs, h1, h2 => by
    rw [Key.less_cons_iff] at h1 h2 ⊢
    rcases h1 with h1 | ⟨rfl, h1⟩
    · rcases h2 with h2 | ⟨rfl, _⟩
      · exact Or.inl (Nat.lt_trans h1 h2)
      · exact Or.inl h1
    · rcases h2 with h2 | ⟨rfl, h2⟩
      · exact Or.inl h2
      · exact Or.inr ⟨rfl, Key.less_trans h1 h2⟩

theorem Key.less_asymm : ∀ {a b : Key},
    Key.less a b = true → Key.less b a = false
  | a, b, h => by
    by_contra hcon
    have hba : Key.less b a = true := by
      cases hx : Key.less b a
      · exact absurd hx hcon
      · rfl
    have := Key.less_trans h hba
    rw [Key.less_irrefl] at this
    cases this

theorem Key.less_connex : ∀ {a b : Key}, a ≠ b →
    Key.less a b = true ∨ Key.less b a = true
  | [], [], h => absurd rfl h
  | [], _ :: _, _ => Or.inl rfl
  | _ :: _, [], _ => Or.inr rfl
  | x :: xs, y :: ys, h => by
    rw [Key.less_cons_iff, Key.less_cons_iff]
    by_cases hxy : x = y
    · subst hxy
      have hne : xs ≠ ys := fun hc => h (by rw [hc])
      rcases Key.less_connex hne with h' | h'
      · exact Or.inl (Or.inr ⟨rfl, h'⟩)
      · exact Or.inr (Or.inr ⟨rfl, h'⟩)
    · rcases Nat.lt_or_ge x y with h' | h'
      · exact Or.inl (Or.inl h')
      · exact Or.inr (Or.inl (by omega))

/-- A proper prefix is lexicographically lesser. -/
theorem Key.less_of_proper_prefix : ∀ {a b : Key},
    a <+: b → a.length < b.length → Key.less a b = true
  | [], [], _, hlen => by cases hlen
  | [], _ :: _, _, _ => rfl
  | x :: xs, b, hpre, hlen => by
    rcases hpre with ⟨t, ht⟩
    subst ht
    rw [List.cons_append, Key.less_cons_iff]
    refine Or.inr ⟨rfl, Key.less_of_proper_prefix ⟨t, rfl⟩ ?_⟩
    simpa using hlen

/-- Keys agreeing below `d` and ordered at `d` are ordered. -/
theorem Key.less_of_agree_lt : ∀ {a b : Key} {d : Nat},
    a.take d = b.take d → ∀ (ha : d < a.length) (hb : d < b.length),
    a[d] < b[d] → Key.less a b = true
  | _ :: _, _ :: _, 0, _, _, _, hlt => by
    rw [Key.less_cons_iff]
    exact Or.inl (by simpa using hlt)
  | x :: xs, y :: ys, d + 1, hagree, ha, hb, hlt => by
    simp only [List.take_succ_cons, List.cons.injEq] at hagree
    rw [Key.less_cons_iff]
    refine Or.inr ⟨hagree.1, ?_⟩
    exact Key.less_of_agree_lt hagree.2 (by simpa using ha) (by simpa using hb)
      (by simpa using hlt)

/-- In an ordered pair agreeing below `d` and differing at `d`, the byte of
the lesser key is smaller. -/
theorem Key.lt_at_diff {a b : Key} {d : Nat} (hless : Key.less a b = true)
    (hagree : a.take d = b.take d) (ha : d < a.length) (hb : d < b.length)
    (hne : a[d] ≠ b[d]) : a[d] < b[d] := by
  rcases Nat.lt_or_ge a[d] b[d] with h | h
  · exact h
  · have hba : b[d] < a[d] := by omega
    have := Key.less_of_agree_lt hagree.symm hb ha hba
    rw [Key.less_asymm this] at hless
    cases hless

/-! ## `FirstDifferenceAt` and `diffBound` -/

theorem firstDifferenceAt_symm : ∀ (a b : List Nat),
    firstDifferenceAt a b = firstDifferenceAt b a
  | [], [] => rfl
  | [], _ :: _ => rfl
  | _ :: _, [] => rfl
  | x :: xs, y :: ys => by
    simp only [firstDifferenceAt]
    by_cases h : x = y
    · subst h
      simp [firstDifferenceAt_symm xs ys]
    · have h' : y ≠ x := fun hc => h hc.symm
      simp [h, h']

theorem firstDifferenceAt_fst_false : ∀ {a b : List Nat},
    (firstDifferenceAt a b).1 = false → a = b
  | [], [], _ => rfl
  | [], _ :: _, h => by simp [firstDifferenceAt] at h
  | _ :: _, [], h => by simp [firstDifferenceAt] at h
  | x :: xs, y :: ys, h => by
    by_cases hxy : x = y
    · subst hxy
      have hxs : (firstDifferenceAt xs ys).1 = false := by
        simp only [firstDifferenceAt, ne_eq, not_true_eq_false, ite_false] at h
        rcases hrec : firstDifferenceAt xs ys with ⟨d, j⟩
        rw [hrec] at h
        cases d
        · rfl
        · simp at h
      rw [firstDifferenceAt_fst_false hxs]
    · simp [firstDifferenceAt, hxy] at h

/-- The full characterisation of `FirstDifferenceAt` on distinct inputs. -/
theorem firstDifferenceAt_spec : ∀ {a b : List Nat}, a ≠ b →
    ∃ i, firstDifferenceAt a b = (true, i) ∧ a.take i = b.take i ∧
      ((∃ (ha : i < a.length) (hb : i < b.length), a[i] ≠ b[i]) ∨
       (i = a.length ∧ a.length < b.length) ∨
       (i = b.length ∧ b.length < a.length))
  | [], [], h => absurd rfl h
  | [], y :: ys, _ => ⟨0, rfl, by simp, by simp⟩
  | x :: xs, [], _ => ⟨0, rfl, by simp, by simp⟩
  | x :: xs, y :: ys, h => by
    by_cases hxy : x = y
    · subst hxy
      have hne : xs ≠ ys := fun hc => h (by rw [hc])
      rcases firstDifferenceAt_spec hne with ⟨i, heq, hagree, hcase⟩
      refine ⟨i + 1, ?_, ?_, ?_⟩
      · simp only [firstDifferenceAt]
        simp [heq]
      · simpa using hagree
      · rcases hcase with ⟨ha, hb, hne'⟩ | ⟨h1, h2⟩ | ⟨h1, h2⟩
        · exact Or.inl ⟨by simpa using ha, by simpa using hb, by simpa using hne'⟩
        · exact Or.inr (Or.inl ⟨by simp [h1], by simpa using h2⟩)
        · exact Or.inr (Or.inr ⟨by simp [h1], by simpa using h2⟩)
    · refine ⟨0, ?_, by simp, Or.inl ⟨by simp, by simp, by simpa using hxy⟩⟩
      simp [firstDifferenceAt, hxy]

theorem firstDifferenceAt_self (a : List Nat) : (firstDifferenceAt a a).1 = false := by
  induction a with
  | nil => rfl
  | cons v vs ih =>
    simp only [firstDifferenceAt, ne_eq, not_true_eq_false, ite_false]
    rcases hr : firstDifferenceAt vs vs with ⟨dd, jj⟩
    rw [hr] at ih
    cases dd
    · rfl
    · cases ih

theorem diffBound_self (a : List Nat) : diffBound a a = a.length := by
  unfold diffBound
  rcases heq : firstDifferenceAt a a with ⟨d, i⟩
  have := firstDifferenceAt_self a
  rw [heq] at this
  cases d
  · rfl
  · cases this

theorem diffBound_eq_of_spec {a b : List Nat} {i : Nat}
    (heq : firstDifferenceAt a b = (true, i)) : diffBound a b = i := by
  unfold diffBound
  rw [heq]

theorem diffBound_le (a b : List Nat) : diffBound a b ≤ a.length := by
  by_cases h : a = b
  · subst h
    rw [diffBound_self]
  · rcases firstDifferenceAt_spec h with ⟨i, heq, _, hcase⟩
    rw [diffBound_eq_of_spec heq]
    rcases hcase with ⟨ha, _, _⟩ | ⟨h1, _⟩ | ⟨h1, h2⟩ <;> omega

theorem diffBound_symm {a b : List Nat} : diffBound a b = diffBound b a := by
  by_cases h : a = b
  · subst h; rfl
  · unfold diffBound
    rw [firstDifferenceAt_symm]
    rcases firstDifferenceAt_spec (fun hc => h hc.symm : b ≠ a) with ⟨i, heq, _, _⟩
    rw [heq]

/-- Characterisation of `diffBound` on an ordered pair: the bound is the
length of the common prefix, and either both keys continue with ordered
bytes or the lesser key is a proper prefix. -/
theorem diffBound_spec_of_less {a b : List Nat} (h : Key.less a b = true) :
    a.take (diffBound a b) = b.take (diffBound a b) ∧
      ((∃ (ha : diffBound a b < a.length) (hb : diffBound a b < b.length),
          a[diffBound a b] < b[diffBound a b]) ∨
       (diffBound a b = a.length ∧ a.length < b.length)) := by
  have hne : a ≠ b := by
    intro hc
    subst hc
    rw [Key.less_irrefl] at h
    cases h
  rcases firstDifferenceAt_spec hne with ⟨i, heq, hagree, hcase⟩
  have hdb : diffBound a b = i := by unfold diffBound; rw [heq]
  rw [hdb]
  refine ⟨hagree, ?_⟩
  rcases hcase with ⟨ha, hb, hne'⟩ | ⟨h1, h2⟩ | ⟨h1, h2⟩
  · exact Or.inl ⟨ha, hb, Key.lt_at_diff h hagree ha hb hne'⟩
  · exact Or.inr ⟨h1, h2⟩
  · exfalso
    -- b would be a proper prefix of a, contradicting a < b
    subst h1
    have hpre : b <+: a := by
      rw [List.prefix_iff_eq_take]
      rw [List.take_of_length_le (le_refl _)] at hagree
      exact hagree.symm
    have := Key.less_of_proper_prefix hpre h2
    rw [Key.less_asymm this] at h
    cases h

end Surf

namespace Surf

theorem truncate_length (keys : List Key) : (truncate keys).length = keys.length := by
  simp [truncate]

theorem truncate_eq_mapIdx_truncBound (keys : List Key) :
    truncate keys = keys.mapIdx fun i key =>
      key.take (truncBound key.length
        (if i ≠ 0 then diffBound key (keys.getD (i - 1) []) else 0)
        (if i ≠ keys.length - 1 then diffBound key (keys.getD (i + 1) []) else 0)) :=
  rfl

theorem truncate_getElem (keys : List Key) (i : Nat) (h : i < keys.length)
    (h2 : i < (truncate keys).length) :
    (truncate keys)[i] =
      keys[i].take (truncBound keys[i].length
        (if i ≠ 0 then diffBound keys[i] (keys.getD (i - 1) []) else 0)
        (if i ≠ keys.length - 1 then diffBound keys[i] (keys.getD (i + 1) []) else 0)) := by
  simp only [truncate_eq_mapIdx_truncBound, List.getElem_mapIdx]

theorem truncBound_ge (len pa sa : Nat) : sa ≤ truncBound len pa sa := by
  unfold truncBound
  simp only
  split <;> split <;> omega

theorem truncBound_le (len pa sa : Nat) (h1 : pa ≤ len) (h2 : sa ≤ len) :
    truncBound len pa sa ≤ len + 1 := by
  unfold truncBound
  simp only
  split <;> split <;> omega

/-- The heart of C7: the truncations of an ordered pair of keys stay
ordered, where the inner bound of each is the mutual first difference. -/
theorem truncBound_pair_less (a b : Key) (hab : Key.less a b = true)
    (pa sb : Nat) (hpa : pa ≤ a.length) :
    Key.less (a.take (truncBound a.length pa (diffBound a b)))
      (b.take (truncBound b.length (diffBound b a) sb)) = true := by
  have hd_le_a : diffBound a b ≤ a.length := diffBound_le a b
  have hsymm : diffBound b a = diffBound a b := diffBound_symm
  rw [hsymm]
  rcases diffBound_spec_of_less hab with ⟨hagree, hcase⟩
  set d := diffBound a b with hd
  set ni' := truncBound a.length pa d with hni'
  set nj' := truncBound b.length d sb with hnj'
  have hni'_spec : (d < ni' ∧ ni' ≤ a.length) ∨ a.length ≤ ni' := by
    rw [hni']
    unfold truncBound
    simp only
    split <;> split <;> omega
  have hnj'_spec : (d < nj' ∧ nj' ≤ b.length) ∨ b.length ≤ nj' := by
    rw [hnj']
    unfold truncBound
    simp only
    have := truncBound_ge b.length d sb
    split <;> split <;> omega
  rcases hcase with ⟨hda, hdb, hlt⟩ | ⟨hdeq, hlen⟩
  · -- both keys continue past d with ordered bytes
    have hta : d < (a.take ni').length := by
      rw [List.length_take]
      rcases hni'_spec with ⟨h1, _⟩ | h1 <;> omega
    have htb : d < (b.take nj').length := by
      rw [List.length_take]
      rcases hnj'_spec with ⟨h1, _⟩ | h1 <;> omega
    apply Key.less_of_agree_lt _ hta htb
    · rw [List.getElem_take, List.getElem_take]
      exact hlt
    · rw [List.take_take, List.take_take]
      have h1 : min d ni' = d := Nat.min_eq_left (by rw [List.length_take] at hta; omega)
      have h2 : min d nj' = d := Nat.min_eq_left (by rw [List.length_take] at htb; omega)
      rw [h1, h2]
      exact hagree
  · -- a is a proper prefix of b
    have hta : a.take ni' = a := by
      apply List.take_of_length_le
      rcases hni'_spec with ⟨h1, _⟩ | h1 <;> omega
    have hnj'_gt : a.length < nj' := by
      rcases hnj'_spec with ⟨h1, _⟩ | h1 <;> omega
    have htb_len : a.length < (b.take nj').length := by
      rw [List.length_take]
      omega
    rw [hta]
    apply Key.less_of_proper_prefix _ htb_len
    have haeq : a = b.take a.length := by
      have h1 : a.take d = a := by rw [hdeq]; exact List.take_length _
      rw [← hdeq, ← hagree, h1]
    rw [haeq, List.prefix_take_iff]
    refine ⟨List.take_prefix _ _, ?_⟩
    rw [List.length_take]
    omega

/-- Adjacent truncated keys remain strictly ordered. -/
theorem truncate_adjacent_less (keys : List Key)
    (hsorted : List.Pairwise (fun a b => Key.less a b = true) keys)
    (i : Nat) (h : i + 1 < keys.length)
    (h2 : i < (truncate keys).length) (h3 : i + 1 < (truncate keys).length) :
    Key.less (truncate keys)[i] (truncate keys)[i + 1] = true := by
  have hi : i < keys.length := by omega
  have hab : Key.less keys[i] keys[i + 1] = true :=
    (List.pairwise_iff_getElem.mp hsorted) i (i + 1) hi h (by omega)
  rw [truncate_getElem keys i hi h2, truncate_getElem keys (i + 1) h h3]
  have hfdai :
      (if i ≠ keys.length - 1 then diffBound keys[i] (keys.getD (i + 1) []) else 0) =
        diffBound keys[i] keys[i + 1] := by
    rw [if_pos (by omega)]
    congr 1
    exact getD_eq_getElem keys [] (i + 1) h
  have hfdbj :
      (if i + 1 ≠ 0 then diffBound keys[i + 1] (keys.getD (i + 1 - 1) []) else 0) =
        diffBound keys[i + 1] keys[i] := by
    rw [if_pos (by omega)]
    congr 1
    simpa using getD_eq_getElem keys [] i hi
  rw [hfdai, hfdbj]
  apply truncBound_pair_less keys[i] keys[i + 1] hab
  split
  · exact diffBound_le _ _
  · omega

/-- C7: on a sorted, duplicate-free key list, `Truncate` preserves the
length, emits a prefix of each input key, and the outputs are again
strictly sorted — hence pairwise distinct. -/
theorem c7_truncation_preservation (keys : List Key)
    (hsorted : List.Pairwise (fun a b => Key.less a b = true) keys) :
    (truncate keys).length = keys.length ∧
    (∀ i, i < keys.length → (truncate keys).getD i [] <+: keys.getD i []) ∧
    List.Pairwise (fun a b => Key.less a b = true) (truncate keys) := by
  refine ⟨truncate_length keys, ?_, ?_⟩
  · intro i hi
    rw [getD_eq_getElem _ _ _ (by simpa [truncate_length] using hi),
      getD_eq_getElem _ _ _ hi,
      truncate_getElem keys i hi (by simpa [truncate_length] using hi)]
    exact List.take_prefix _ _
  · rw [List.pairwise_iff_getElem]
    intro i j hi hj hij
    rw [truncate_length] at hi hj
    have hti : i < (truncate keys).length := by simp [truncate_length]; omega
    have step : ∀ m, i < m → m < keys.length →
        (hm2 : m < (truncate keys).length) →
        Key.less (truncate keys)[i] (truncate keys)[m] = true := by
      intro m
      induction m with
      | zero => omega
      | succ m ih =>
        intro him hmlen hm2
        have hmt : m < (truncate keys).length := by simp [truncate_length]; omega
        rcases Nat.lt_or_ge i m with hlt | hge
        · have h1 := ih hlt (by omega) hmt
          have h2 := truncate_adjacent_less keys hsorted m hmlen hmt hm2
          exact Key.less_trans h1 h2
        · have : i = m := by omega
          subst this
          exact truncate_adjacent_less keys hsorted i hmlen hti hm2
    exact step j hij hj (by simpa [truncate_length] using hj)

/-- C7, witness: the paper-style input `[[0], [1, 2]]`. -/
theorem c7_truncation_preservation_witness :
    (List.Pairwise (fun a b => Key.less a b = true) ([[0], [1, 2]] : List Key)) ∧
    ((truncate [[0], [1, 2]]).length = ([[0], [1, 2]] : List Key).length ∧
     (∀ i, i < ([[0], [1, 2]] : List Key).length →
        (truncate [[0], [1, 2]]).getD i [] <+: ([[0], [1, 2]] : List Key).getD i []) ∧
     List.Pairwise (fun a b => Key.less a b = true) (truncate [[0], [1, 2]])) :=
  ⟨by decide, c7_truncation_preservation [[0], [1, 2]] (by decide)⟩

end Surf

namespace Surf

/-! ## Bitmap basics -/

theorem getD_append_replicate_false (l : List Bool) (k i : Nat) :
    (l ++ List.replicate k false).getD i false = l.getD i false := by
  simp only [List.getD_eq_getElem?_getD]
  rcases Nat.lt_or_ge i l.length with h | h
  · rw [List.getElem?_append_left h]
  · rw [List.getElem?_append_right h, List.getElem?_replicate,
      List.getElem?_eq_none (by simpa using h)]
    split <;> rfl

theorem Bitmap.resize_capacity (bm : Bitmap) (bit : Nat) :
    (bm.resize bit).capacity = bm.capacity := by
  unfold Bitmap.resize
  split
  · rfl
  · simp only
    repeat' split
    all_goals rfl

theorem Bitmap.resize_bits_getD (bm : Bitmap) (bit i : Nat) :
    (bm.resize bit).bits.getD i false = bm.bits.getD i false := by
  unfold Bitmap.resize
  split
  · rfl
  · simp only
    repeat' split
    all_goals first
      | rfl
      | exact getD_append_replicate_false _ _ _

theorem Bitmap.resize_length_ge (bm : Bitmap) (bit : Nat) :
    bm.bits.length ≤ (bm.resize bit).bits.length := by
  unfold Bitmap.resize
  split
  · exact le_refl _
  · simp only
    repeat' split
    all_goals simp

/-- `Get` on a bit below the allocated length leaves the bitmap unchanged
and reads the stored bit. -/
theorem Bitmap.get_of_lt_length (bm : Bitmap) (bit : Nat)
    (h1 : bit < bm.bits.length) (h2 : bit < bm.capacity) :
    bm.get bit = .ok (bm, if bm.bits.getD bit false then 1 else 0) := by
  unfold Bitmap.get
  have hA : ¬bit ≥ bm.capacity := by omega
  have hB : ¬bit ≥ bm.length := by simp only [Bitmap.length]; omega
  rw [if_neg hA]
  simp only [if_neg hB]

theorem Bitmap.get_error_iff (bm : Bitmap) (bit : Nat) :
    (∃ e, bm.get bit = .error e) ↔ bm.capacity ≤ bit := by
  unfold Bitmap.get
  constructor
  · intro ⟨e, he⟩
    by_contra h
    rw [if_neg (by omega)] at he
    simp at he
  · intro h
    exact ⟨.invalidIndex, by rw [if_pos (by omega)]⟩

theorem Bitmap.get_ok_capacity (bm : Bitmap) (bit : Nat) {bm' : Bitmap} {v : Nat}
    (h : bm.get bit = .ok (bm', v)) : bm'.capacity = bm.capacity ∧ bit < bm.capacity := by
  unfold Bitmap.get at h
  by_cases hc : bit ≥ bm.capacity
  · rw [if_pos hc] at h
    cases h
  · rw [if_neg hc] at h
    simp only [Except.ok.injEq, Prod.mk.injEq] at h
    refine ⟨?_, by omega⟩
    rw [← h.1]
    split
    · exact Bitmap.resize_capacity _ _
    · rfl

theorem Bitmap.get_ok_bits (bm : Bitmap) (bit : Nat) {bm' : Bitmap} {v : Nat}
    (h : bm.get bit = .ok (bm', v)) :
    (∀ i, bm'.bits.getD i false = bm.bits.getD i false) ∧
    bm.bits.length ≤ bm'.bits.length ∧
    v = (if bm.bits.getD bit false then 1 else 0) := by
  unfold Bitmap.get at h
  by_cases hc : bit ≥ bm.capacity
  · rw [if_pos hc] at h
    cases h
  · rw [if_neg hc] at h
    simp only [Except.ok.injEq, Prod.mk.injEq] at h
    constructor
    · intro i
      rw [← h.1]
      split
      · exact Bitmap.resize_bits_getD _ _ _
      · rfl
    constructor
    · rw [← h.1]
      split
      · exact Bitmap.resize_length_ge _ _
      · exact le_refl _
    · rw [← h.2]
      congr 1
      split
      · rw [Bitmap.resize_bits_getD]
      · rfl

/-- A `true`/`false` count of the first `n` bits, written with `List.count`. -/
theorem count_true_add_count_false (l : List Bool) :
    l.count true + l.count false = l.length := by
  induction l with
  | nil => rfl
  | cons x xs ih =>
    cases x <;> simp [List.count_cons, ih] <;> omega

theorem count_take_succ (l : List Bool) (c : Bool) (i : Nat) (h : i < l.length) :
    (l.take (i + 1)).count c = (l.take i).count c + (if l[i] = c then 1 else 0) := by
  rw [List.take_succ, List.getElem?_eq_getElem h]
  simp only [Option.toList_some, List.count_append, List.count_cons, List.count_nil]
  split <;> simp_all

theorem count_take_le (l : List Bool) (c : Bool) {m n : Nat} (h : m ≤ n) :
    (l.take m).count c ≤ (l.take n).count c := by
  have heq : l.take m = (l.take n).take m := by
    rw [List.take_take, Nat.min_eq_left h]
  rw [heq]
  exact (List.take_sublist _ _).count_le _

end Surf

namespace Surf

theorem rankLoop_past (checkOnes : Bool) (bits : List Bool) (idx : Nat)
    (fuel i cnt : Nat) (h : idx < i) :
    rankLoop checkOnes bits idx fuel i cnt = cnt := by
  cases fuel with
  | zero => rfl
  | succ fuel =>
    unfold rankLoop
    rw [if_neg (by omega)]

theorem rankLoop_spec (checkOnes : Bool) (bits : List Bool) (idx : Nat)
    (hidx : idx < bits.length) :
    ∀ fuel i cnt, i ≤ idx → (idx - i) / 64 < fuel →
    rankLoop checkOnes bits idx fuel i cnt =
      cnt + ((bits.drop i).take (idx - i + 1)).count checkOnes := by
  intro fuel
  induction fuel with
  | zero => intro i cnt hle hfuel; omega
  | succ fuel ih =>
    intro i cnt hle hfuel
    unfold rankLoop
    rw [if_pos hle]
    simp only
    by_cases hfull : i + 63 < idx
    · simp only [if_pos hfull]
      set W := List.take 64 (List.drop i bits) with hW
      have hword_len : W.length = 64 := by
        rw [hW, List.length_take, List.length_drop]
        omega
      have hsum := count_true_add_count_false W
      have hacc : (if checkOnes = true then cnt + countTrue W
          else cnt + (64 - countTrue W)) = cnt + W.count checkOnes := by
        cases checkOnes
        · simp only [Bool.false_eq_true, if_false, countTrue] at hsum ⊢
          omega
        · simp [countTrue]
      rw [hacc, ih (i + 64) (cnt + W.count checkOnes) (by omega) (by omega)]
      have hsplit : (bits.drop i).take (idx - i + 1) =
          W ++ (bits.drop (i + 64)).take (idx - i + 1 - 64) := by
        obtain ⟨m, hm⟩ : ∃ m, idx - i + 1 = 64 + m := ⟨idx - i + 1 - 64, by omega⟩
        rw [hW, hm, Nat.add_sub_cancel_left, List.take_add, List.drop_drop]
      rw [hsplit, List.count_append]
      have h2 : idx - (i + 64) + 1 = idx - i + 1 - 64 := by omega
      rw [h2]
      omega
    · simp only [if_neg hfull]
      have htake : (List.take 64 (List.drop i bits)).take (idx - i + 1) =
          (bits.drop i).take (idx - i + 1) := by
        rw [List.take_take, Nat.min_eq_left (by omega)]
      rw [htake]
      set P := List.take (idx - i + 1) (List.drop i bits) with hP
      have hplen : P.length = idx - i + 1 := by
        rw [hP, List.length_take, List.length_drop]
        omega
      have hsum := count_true_add_count_false P
      have hacc : (if checkOnes = true then cnt + countTrue P
          else cnt + (idx - i + 1 - countTrue P)) = cnt + P.count checkOnes := by
        cases checkOnes
        · simp only [Bool.false_eq_true, if_false, countTrue] at hsum ⊢
          omega
        · simp [countTrue]
      rw [hacc, rankLoop_past _ _ _ _ _ _ (by omega)]

/-- `Rank` on a valid argument pair computes the number of `val` bits in
positions `[0, idx]`. -/
theorem Bitmap.rank_ok (bm : Bitmap) (val idx : Nat) (h1 : idx < bm.bits.length)
    (h2 : val = 0 ∨ val = 1) :
    bm.rank val idx = .ok ((bm.bits.take (idx + 1)).count (decide (val = 1))) := by
  unfold Bitmap.rank
  rw [if_neg (by simp only [Bitmap.length]; omega), if_neg (by
    simp only [not_not]
    omega)]
  congr 1
  have := rankLoop_spec (decide (val = 1)) bm.bits idx h1 (idx / 64 + 1) 0 0
    (by omega) (by omega)
  simpa using this

end Surf

namespace Surf

/-! ## Select: the word scan and the bit-by-bit finish -/

theorem count_take_add (l : List Bool) (c : Bool) (a b : Nat) :
    (l.take (a + b)).count c = (l.take a).count c + ((l.drop a).take b).count c := by
  rw [List.take_add, List.count_append]

theorem chunk_count_exact (l : List Bool) (c : Bool) (idx : Nat) (h : idx + 64 ≤ l.length) :
    (if c then countTrue ((l.drop idx).take 64) else 64 - countTrue ((l.drop idx).take 64)) =
      ((l.drop idx).take 64).count c := by
  have hlen : ((l.drop idx).take 64).length = 64 := by
    rw [List.length_take, List.length_drop]
    omega
  have hsum := count_true_add_count_false ((l.drop idx).take 64)
  cases c
  · simp only [Bool.false_eq_true, if_false, countTrue] at hsum ⊢
    omega
  · simp [countTrue]

theorem chunk_count_ge (l : List Bool) (c : Bool) (idx : Nat) :
    ((l.drop idx).take 64).count c ≤
      (if c then countTrue ((l.drop idx).take 64) else 64 - countTrue ((l.drop idx).take 64)) := by
  have hlen : ((l.drop idx).take 64).length ≤ 64 := by
    rw [List.length_take]
    omega
  have hsum := count_true_add_count_false ((l.drop idx).take 64)
  cases c
  · simp only [Bool.false_eq_true, if_false, countTrue] at hsum ⊢
    omega
  · simp [countTrue]

theorem selectScan_past (c : Bool) (bits : List Bool) (nth fuel idx count : Nat)
    (h : bits.length ≤ idx) : selectScan c bits nth fuel idx count = (count, idx) := by
  cases fuel with
  | zero => rfl
  | succ fuel =>
    unfold selectScan
    rw [if_neg (by omega)]

/-- The word scan stops exactly at the word containing the `nth`-th `c`
bit when such a bit exists at position `i`. -/
theorem selectScan_hits_target (c : Bool) (bits : List Bool) (nth i : Nat)
    (hi : i < bits.length) (hmatch : bits.getD i false = c)
    (hnth : nth = (bits.take (i + 1)).count c) :
    ∀ fuel idx count, 64 ∣ idx → idx ≤ 64 * (i / 64) →
      count = (bits.take idx).count c → i / 64 - idx / 64 < fuel →
      selectScan c bits nth fuel idx count =
        ((bits.take (64 * (i / 64))).count c, 64 * (i / 64)) := by
  have hnth_pos : nth = (bits.take i).count c + 1 := by
    rw [hnth, count_take_succ bits c i hi]
    rw [getD_eq_getElem bits false i hi] at hmatch
    rw [if_pos hmatch]
  intro fuel
  induction fuel with
  | zero => intro idx count _ _ _ h4; omega
  | succ fuel ih =>
    intro idx count hdvd hlt hcount hfuel
    have hiw_le : 64 * (i / 64) ≤ i := Nat.mul_div_le i 64 |>.trans_eq rfl |>.trans (le_refl i)
    unfold selectScan
    rw [if_pos (by omega)]
    simp only
    rcases Nat.lt_or_ge idx (64 * (i / 64)) with hcase | hcase
    · -- a full word strictly before the target word: no break
      have hstep : idx + 64 ≤ 64 * (i / 64) := by
        rcases hdvd with ⟨k, hk⟩
        subst hk
        omega
      have hfull : idx + 64 ≤ bits.length := by omega
      have hexact := chunk_count_exact bits c idx hfull
      have hnobreak : ¬(count + (if c then countTrue ((bits.drop idx).take 64)
          else 64 - countTrue ((bits.drop idx).take 64)) ≥ nth) := by
        rw [hexact, hcount, ← count_take_add]
        have hmono : (bits.take (idx + 64)).count c ≤ (bits.take i).count c :=
          count_take_le bits c (by omega)
        omega
      rw [if_neg hnobreak]
      rw [ih (idx + 64) _ (by omega) (by omega) ?_ (by
        rcases hdvd with ⟨k, hk⟩
        subst hk
        have : (64 * k + 64) / 64 = k + 1 := by omega
        rw [this]
        have : (64 * k) / 64 = k := by omega
        rw [this] at hfuel
        omega)]
      · rw [hexact, hcount, ← count_take_add]
    · -- the target word: the break fires
      have hidx_eq : idx = 64 * (i / 64) := by omega
      subst hidx_eq
      have hbreak : count + (if c then countTrue ((bits.drop (64 * (i / 64))).take 64)
          else 64 - countTrue ((bits.drop (64 * (i / 64))).take 64)) ≥ nth := by
        have hge := chunk_count_ge bits c (64 * (i / 64))
        have hin : (bits.take (i + 1)).count c ≤
            (bits.take (64 * (i / 64))).count c +
              ((bits.drop (64 * (i / 64))).take 64).count c := by
          rw [← count_take_add]
          apply count_take_le
          have : i < 64 * (i / 64) + 64 := by omega
          omega
        rw [hcount]
        rw [hnth]
        omega
      rw [if_pos hbreak, hcount]

/-- Once the running count has reached `nth`, the finish loop reports the
previous index. -/
theorem selectFinish_done (c : Bool) (nth fuel : Nat) (bm : Bitmap) (count idx : Nat)
    (h : nth ≤ count) :
    selectFinish c nth (fuel + 1) bm count idx = .ok (bm, idx - 1) := by
  unfold selectFinish
  rw [if_neg (by omega)]

/-- The finish loop walks bit by bit from the start of the target word to
the target bit. -/
theorem selectFinish_hits_target (c : Bool) (bm : Bitmap) (nth i : Nat)
    (hi_len : i < bm.bits.length) (hi_cap : i < bm.capacity)
    (hmatch : bm.bits.getD i false = c)
    (hnth : nth = (bm.bits.take (i + 1)).count c) :
    ∀ fuel idx count, idx ≤ i → count = (bm.bits.take idx).count c →
      i + 2 - idx ≤ fuel →
      selectFinish c nth fuel bm count idx = .ok (bm, i) := by
  have hmatch' : bm.bits[i] = c := by
    rw [← getD_eq_getElem bm.bits false i hi_len]
    exact hmatch
  have hnth_pos : nth = (bm.bits.take i).count c + 1 := by
    rw [hnth, count_take_succ bm.bits c i hi_len, if_pos hmatch']
  intro fuel
  induction fuel with
  | zero => intro idx count h1 _ h3; omega
  | succ fuel ih =>
    intro idx count hle hcount hfuel
    unfold selectFinish
    have hcount_lt : count < nth := by
      rw [hcount, hnth_pos]
      have := count_take_le bm.bits c (le_refl i)
      have := count_take_le bm.bits c hle
      omega
    rw [if_pos hcount_lt]
    rw [Bitmap.get_of_lt_length bm idx (by omega) (by omega)]
    simp only
    have hidxlen : idx < bm.bits.length := by omega
    have hv : (if bm.bits.getD idx false then 1 else 0) = 1 ↔ bm.bits[idx] = true := by
      rw [getD_eq_getElem bm.bits false idx (by omega)]
      split <;> simp_all
    have hcount' : (if ((if bm.bits.getD idx false then 1 else 0) = 1 ∧ c = true) ∨
          ((if bm.bits.getD idx false then 1 else 0) = 0 ∧ ¬c = true) then count + 1
        else count) = (bm.bits.take (idx + 1)).count c := by
      rw [count_take_succ bm.bits c idx (by omega), ← hcount]
      rw [getD_eq_getElem bm.bits false idx (by omega)]
      rcases hb : bm.bits[idx] <;> cases c <;> simp [hb]
    rw [hcount']
    rcases Nat.lt_or_ge idx i with hlt | hge
    · exact ih (idx + 1) _ (by omega) rfl (by omega)
    · have hidx_eq : idx = i := by omega
      subst hidx_eq
      have hdone : nth ≤ (bm.bits.take (idx + 1)).count c := by omega
      cases fuel with
      | zero => omega
      | succ fuel =>
        rw [selectFinish_done c nth fuel bm _ _ hdone]
        simp

end Surf

namespace Surf

/-- C9, counterexample: `New(1, 1)` allocates a whole 64-bit word, so its
length is 64 while its capacity is 1.  Bit 1 is within the length and
holds 0, and `Rank(0, 1) = 2`, but `Select(0, 2)` fails — its bit loop
reaches index 1, which `Get` rejects as beyond the capacity — instead of
returning index 1. -/
theorem c9_rank_select_duality_counterexample :
    (Bitmap.new 1 1).length = 64 ∧
    (Bitmap.new 1 1).bitAt 1 = 0 ∧
    (Bitmap.new 1 1).rank 0 1 = .ok 2 ∧
    (Bitmap.new 1 1).select 0 2 = .error .invalidIndex := by
  refine ⟨by decide, by decide, by decide, by decide⟩

set_option maxRecDepth 4000 in
/-- C9, amended: rank/select duality holds for every index that is within
the bitmap's *capacity* as well as its length: if `B[i] = v` with
`i < length` and `i < capacity`, then `Select(v, Rank(v, i)) = (i, nil)`.
(The original claim, quantified over all `i` within the length, fails for
the zero-filled bits between the capacity and the word-aligned length.) -/
theorem c9_rank_select_duality_amended (bm : Bitmap) (v i : Nat)
    (h1 : i < bm.length) (h2 : i < bm.capacity) (h3 : bm.bitAt i = v) :
    ∃ r, bm.rank v i = .ok r ∧ bm.select v r = .ok (bm, i) := by
  have h1' : i < bm.bits.length := h1
  have hv01 : v = 0 ∨ v = 1 := by
    unfold Bitmap.bitAt at h3
    split at h3 <;> omega
  have hc : bm.bits.getD i false = decide (v = 1) := by
    unfold Bitmap.bitAt at h3
    rcases hb : bm.bits.getD i false <;> rw [hb] at h3 <;> simp_all <;> omega
  set c : Bool := decide (v = 1) with hcdef
  set r : Nat := (bm.bits.take (i + 1)).count c with hrdef
  have hr_pos : 1 ≤ r := by
    rw [hrdef, count_take_succ bm.bits c i h1']
    rw [getD_eq_getElem bm.bits false i h1'] at hc
    rw [if_pos hc]
    omega
  have hr_le : r ≤ bm.length := by
    rw [hrdef]
    calc (bm.bits.take (i + 1)).count c ≤ (bm.bits.take (i + 1)).length :=
          List.count_le_length _ _
      _ ≤ i + 1 := by rw [List.length_take]; omega
      _ ≤ bm.length := by omega
  refine ⟨r, ?_, ?_⟩
  · exact Bitmap.rank_ok bm v i h1' hv01
  · unfold Bitmap.select
    rw [if_neg (not_not_intro hv01), if_neg (by omega)]
    simp only
    have hiw_le : 64 * (i / 64) ≤ i := by omega
    rw [selectScan_hits_target c bm.bits r i h1' hc hrdef (bm.length / 64 + 1) 0 0
      ⟨0, rfl⟩ (by omega) (by simp) (by
        have h64 : i / 64 ≤ bm.length / 64 := Nat.div_le_div_right (by omega)
        omega)]
    simp only
    rw [if_neg (by
      simp only [not_lt]
      omega)]
    exact selectFinish_hits_target c bm r i h1' h2 hc hrdef (bm.capacity + 1)
      (64 * (i / 64)) _ hiw_le rfl (by omega)

set_option maxRecDepth 40000 in
/-- C9, witness for the amended theorem at a 128-bit bitmap with bit 70
set. -/
theorem c9_rank_select_duality_witness :
    (70 < exBitmap70.length ∧ 70 < exBitmap70.capacity ∧ exBitmap70.bitAt 70 = 1) ∧
    (∃ r, exBitmap70.rank 1 70 = .ok r ∧ exBitmap70.select 1 r = .ok (exBitmap70, 70)) :=
  ⟨by decide, c9_rank_select_duality_amended exBitmap70 1 70 (by decide) (by decide)
    (by decide)⟩

end Surf

namespace Surf

theorem count_true_drop_append_false (l : List Bool) (k m : Nat) :
    ((l ++ List.replicate k false).drop m).count true = (l.drop m).count true := by
  rcases Nat.lt_or_ge m l.length with h | h
  · rw [List.drop_append_of_le_length (by omega), List.count_append,
      List.count_replicate]
    simp
  · rw [List.drop_eq_nil_of_le h]
    obtain ⟨j, hj⟩ : ∃ j, m = l.length + j := ⟨m - l.length, by omega⟩
    subst hj
    rw [List.drop_append, List.drop_replicate, List.count_replicate]
    simp

theorem count_true_drop_getD (l : List Bool) (idx : Nat) :
    (l.drop idx).count true =
      (if l.getD idx false = true then 1 else 0) + (l.drop (idx + 1)).count true := by
  rcases Nat.lt_or_ge idx l.length with h | h
  · rw [List.drop_eq_getElem_cons h, List.count_cons, getD_eq_getElem l false idx h]
    rcases hb : l[idx] <;> simp [hb] <;> omega
  · rw [List.drop_eq_nil_of_le h, List.drop_eq_nil_of_le (by omega),
      List.getD_eq_getElem?_getD, List.getElem?_eq_none (by omega)]
    simp

theorem resize_bits_eq_append (bm : Bitmap) (bit : Nat) :
    ∃ k, (bm.resize bit).bits = bm.bits ++ List.replicate k false := by
  unfold Bitmap.resize
  split
  · exact ⟨0, by simp⟩
  · simp only
    repeat' split
    all_goals first
      | exact ⟨_, rfl⟩
      | exact ⟨0, by simp⟩

theorem Bitmap.get_ok_append (bm : Bitmap) (bit : Nat) {bm' : Bitmap} {v : Nat}
    (h : bm.get bit = .ok (bm', v)) :
    ∃ k, bm'.bits = bm.bits ++ List.replicate k false := by
  unfold Bitmap.get at h
  by_cases hc : bit ≥ bm.capacity
  · rw [if_pos hc] at h
    cases h
  · rw [if_neg hc] at h
    simp only [Except.ok.injEq, Prod.mk.injEq] at h
    rw [← h.1]
    split
    · exact resize_bits_eq_append _ _
    · exact ⟨0, by simp⟩

/-- The word scan either runs past the data (length not word-aligned) or
stops at a word boundary without having skipped any `c` bits: the final
count plus the remaining `c` bits is no more than the initial count plus
the `c` bits from the initial position on. -/
theorem selectScan_conserve (c : Bool) (bits : List Bool) (nth : Nat) :
    ∀ fuel idx count, (bits.length - idx) / 64 < fuel →
      bits.length < (selectScan c bits nth fuel idx count).2 ∨
      ((selectScan c bits nth fuel idx count).2 ≤ bits.length ∧
       (selectScan c bits nth fuel idx count).1 +
         ((bits.drop (selectScan c bits nth fuel idx count).2).count c) ≤
         count + (bits.drop idx).count c) := by
  intro fuel
  induction fuel with
  | zero => intro idx count hfuel; omega
  | succ fuel ih =>
    intro idx count hfuel
    unfold selectScan
    by_cases hidx : idx < bits.length
    · rw [if_pos hidx]
      simp only
      by_cases hbreak : count + (if c then countTrue ((bits.drop idx).take 64)
          else 64 - countTrue ((bits.drop idx).take 64)) ≥ nth
      · rw [if_pos hbreak]
        exact Or.inr ⟨by omega, le_refl _⟩
      · rw [if_neg hbreak]
        by_cases hfull : idx + 64 ≤ bits.length
        · have hsplit : (bits.drop idx).count c =
              ((bits.drop idx).take 64).count c + (bits.drop (idx + 64)).count c := by
            conv_lhs => rw [← List.take_append_drop 64 (bits.drop idx)]
            rw [List.count_append, List.drop_drop]
          have hexact := chunk_count_exact bits c idx hfull
          rcases ih (idx + 64) (count + (if c then countTrue ((bits.drop idx).take 64)
              else 64 - countTrue ((bits.drop idx).take 64))) (by omega) with h | ⟨h1, h2⟩
          · exact Or.inl h
          · refine Or.inr ⟨h1, ?_⟩
            rw [hexact] at h2 ⊢
            omega
        · rw [selectScan_past c bits nth fuel (idx + 64) _ (by omega)]
          exact Or.inl (by simp only; omega)
    · rw [if_neg hidx]
      rcases Nat.lt_or_ge bits.length idx with h | h
      · exact Or.inl h
      · have : idx = bits.length := by omega
        subst this
        exact Or.inr ⟨le_refl _, le_refl _⟩

/-- When fewer than `nth` bits of the sought value remain, the finish loop
can only end in an error: for ones because the auto-grown bits are all
zero, and for zeros whenever there is no room to auto-grow. -/
theorem selectFinish_insufficient (c : Bool) (nth : Nat) :
    ∀ fuel (bm : Bitmap) count idx,
      count + ((bm.bits.drop idx).count c) < nth →
      (c = true ∨ bm.capacity ≤ bm.bits.length) →
      max 1 (bm.capacity + 1 - idx) ≤ fuel →
      ∃ e, selectFinish c nth fuel bm count idx = .error e := by
  intro fuel
  induction fuel with
  | zero => intro bm count idx _ _ hf; omega
  | succ fuel ih =>
    intro bm count idx hcnt hside hf
    unfold selectFinish
    rw [if_pos (by
      have := Nat.le_add_right count ((bm.bits.drop idx).count c)
      omega)]
    by_cases hcap : idx ≥ bm.capacity
    · refine ⟨.invalidIndex, ?_⟩
      have hget : bm.get idx = .error .invalidIndex := by
        unfold Bitmap.get
        rw [if_pos hcap]
      rw [hget]
    · rcases hside with hc | hlen
      · -- counting ones: auto-growth adds only zeros
        subst hc
        rcases hok : bm.get idx with e | ⟨bm', v⟩
        · exact absurd ((Bitmap.get_error_iff bm idx).mp ⟨e, hok⟩) (by omega)
        · dsimp only
          obtain ⟨k, hk⟩ := Bitmap.get_ok_append bm idx hok
          obtain ⟨hpres, hlen', hv⟩ := Bitmap.get_ok_bits bm idx hok
          obtain ⟨hcap', _⟩ := Bitmap.get_ok_capacity bm idx hok
          have hsplit := count_true_drop_getD bm.bits idx
          have happend := count_true_drop_append_false bm.bits k (idx + 1)
          apply ih bm' _ (idx + 1) ?_ (Or.inl rfl) (by omega)
          rw [hk, happend]
          rcases hb : bm.bits.getD idx false
          · rw [hb] at hsplit hv
            subst hv
            simp only [Bool.false_eq_true, if_false] at hsplit ⊢
            rw [if_neg (by simp)]
            omega
          · rw [hb] at hsplit hv
            subst hv
            simp only [if_true] at hsplit ⊢
            rw [if_pos (by simp)]
            omega
      · -- no growth room: reads are the stored bits
        have hidx_len : idx < bm.bits.length := by omega
        rw [Bitmap.get_of_lt_length bm idx hidx_len (by omega)]
        dsimp only
        have hsplit : (bm.bits.drop idx).count c =
            (if bm.bits[idx] = c then 1 else 0) + (bm.bits.drop (idx + 1)).count c := by
          rw [List.drop_eq_getElem_cons hidx_len, List.count_cons]
          rcases hb : bm.bits[idx] <;> cases c <;> simp [hb] <;> omega
        apply ih bm _ (idx + 1) ?_ (Or.inr hlen) (by omega)
        rw [getD_eq_getElem bm.bits false idx hidx_len]
        rcases hb : bm.bits[idx] <;> rw [hb] at hsplit <;> cases c <;>
          simp_all <;> omega

end Surf

namespace Surf

set_option maxRecDepth 40000 in
/-- C10, counterexample: a bitmap whose 64 allocated bits are all ones,
with capacity 128.  There are no 0 bits in `[0, length)` and `1 ∈ (0,
length]`, yet `Select(0, 1)` does not fail: its bit loop auto-grows the
bitmap into the capacity headroom, counts the zero-filled new bit, and
returns index 64. -/
theorem c10_select_insufficient_counterexample :
    exBitmapOnes.length = 64 ∧
    exBitmapOnes.bits.count false = 0 ∧
    (exBitmapOnes.select 0 1).isOk = true ∧
    (exBitmapOnes.select 0 1).toOption.map Prod.snd = some 64 := by
  refine ⟨by decide, by decide, by decide, by decide⟩

/-- C10, amended: `Select(v, n)` always fails for `n` outside
`(0, length]`; and when fewer than `n` bits of value `v` occur in
`[0, length)`, it fails provided either `v = 1`, or the bitmap has no
auto-growth headroom (`capacity ≤ length`).  For `v = 0` with
`length < capacity`, the auto-growing `Get` of the finishing loop can
manufacture zero bits beyond the length, so `Select(0, n)` may instead
return an index at or beyond the length. -/
theorem c10_select_insufficient_amended (bm : Bitmap) (v n : Nat) :
    ((n = 0 ∨ bm.length < n) → ∃ e, bm.select v n = .error e) ∧
    (0 < n → n ≤ bm.length → (bm.bits.count (decide (v = 1))) < n →
      (v = 1 ∨ bm.capacity ≤ bm.length) → ∃ e, bm.select v n = .error e) := by
  constructor
  · intro hrange
    unfold Bitmap.select
    by_cases hval : v = 0 ∨ v = 1
    · rw [if_neg (not_not_intro hval), if_pos (by omega)]
      exact ⟨.nthOutOfRange, rfl⟩
    · rw [if_pos hval]
      exact ⟨.invalidValue, rfl⟩
  · intro hpos hle hcount hside
    unfold Bitmap.select
    by_cases hval : v = 0 ∨ v = 1
    · rw [if_neg (not_not_intro hval), if_neg (by omega)]
      simp only
      have hbl : bm.length = bm.bits.length := rfl
      rcases selectScan_conserve (decide (v = 1)) bm.bits n (bm.length / 64 + 1) 0 0
          (by
            have : (bm.bits.length - 0) / 64 ≤ bm.bits.length / 64 :=
              Nat.div_le_div_right (by omega)
            omega) with hover | ⟨hscan_le, hscan_count⟩
      · have hover2 : (selectScan (decide (v = 1)) bm.bits n (bm.length / 64 + 1) 0 0).2 >
            bm.length := hover
        rw [if_pos hover2]
        exact ⟨.insufficientBits, rfl⟩
      · rw [if_neg (by omega)]
        apply selectFinish_insufficient (decide (v = 1)) n (bm.capacity + 1) bm _ _
        · simp only [List.drop_zero] at hscan_count
          omega
        · rcases hside with h | h
          · exact Or.inl (by simp [h])
          · exact Or.inr h
        · omega
    · rw [if_pos hval]
      exact ⟨.invalidValue, rfl⟩

/-- C10, witness for the amended theorem: an all-zero 64-bit bitmap with
no capacity headroom has no 1 bits, and `Select(1, 1)` fails. -/
theorem c10_select_insufficient_witness :
    (0 < 1 ∧ 1 ≤ (Bitmap.new 64 64).length ∧
      ((Bitmap.new 64 64).bits.count (decide ((1 : Nat) = 1))) < 1) ∧
    (∃ e, (Bitmap.new 64 64).select 1 1 = .error e) :=
  ⟨⟨by decide, by decide, by decide⟩,
    (c10_select_insufficient_amended (Bitmap.new 64 64) 1 1).2 (by decide) (by decide)
      (by decide) (Or.inl rfl)⟩

end Surf

namespace Surf

set_option maxRecDepth 1000000 in
set_option maxHeartbeats 8000000 in
/-- C2, evaluation at the failing input: the SuRF built from
`{[0,0], [0,1]}` answers `LookupOrGreater([0,2])` with `[0,0]` and no
error — a key strictly *smaller* than the query.  After `lookup` fails at
edge 2 of the node reached via edge 0, the iterator's `nextEdge` is still
0 (a failed `GoToChild` does not advance it), so the subsequent `Next`
re-yields keys of the current subtree that precede the query. -/
theorem c2_lookup_or_greater_failing_input :
    (new [[0, 0], [0, 1]] 1026).isOk = true ∧
    (exSurf2.lookupOrGreater [0, 2]).1 = [0, 0] ∧
    (exSurf2.lookupOrGreater [0, 2]).2.2 = none ∧
    Key.less [0, 0] [0, 2] = true := by
  refine ⟨by decide, by decide, by decide, by decide⟩

set_option maxRecDepth 1000000 in
set_option maxHeartbeats 8000000 in
/-- C3, evaluation at the failing input: for the SuRF built from
`{[1,0,0], [1,0,1]}`, both original keys lie in the range
`[[1], [1,255]]` (so `N = 2`), but `Count([1], [1,255])` returns 1 —
an *undercount*, which the claim's lower bound `N ≤ Count` forbids.  The
iterator's `Next` skips edge `0x00` of the node it descends into (the
`for` post-statement increments the freshly reset `nextEdge`), so the key
`[1,0,0]` is never visited. -/
theorem c3_count_failing_input :
    (new [[1, 0, 0], [1, 0, 1]] 1539).isOk = true ∧
    exSurf3.Count [1] [1, 255] = (1, none) ∧
    Key.less [1] [1, 0, 0] = true ∧
    Key.less [1, 0, 0] [1, 255] = true ∧
    Key.less [1, 0, 1] [1, 255] = true := by
  refine ⟨by decide, by decide, by decide, by decide, by decide⟩

set_option maxRecDepth 1000000 in
set_option maxHeartbeats 8000000 in
/-- C4, evaluation at the failing input: `[[0,0], [0,1]]` is its own
truncation and `Build` succeeds on it, yet a fresh iterator yields only
`[0,1]` and then `EndOfTrie`: the truncated key `[0,0]` is skipped,
because after a successful descent the edge loop's post-statement
increments the freshly reset `nextEdge` from 0 to 1, so edge `0x00` of
the entered node is never probed. -/
theorem c4_iteration_failing_input :
    truncate [[0, 0], [0, 1]] = [[0, 0], [0, 1]] ∧
    ((newBuilder 1026).build [[0, 0], [0, 1]]).2 = none ∧
    (exIter4.next).toOption.map Prod.fst = some [0, 1] ∧
    exIter4b.next = .error .endOfTrie := by
  refine ⟨by decide, by decide, by decide, by decide⟩

end Surf

namespace Surf

/-! ## Builder: every bitmap failure during `Build` is reported (C8) -/

theorem Bitmap.set_ok_capacity (bm : Bitmap) (bit : Nat) {bm' : Bitmap}
    (h : bm.set bit = .ok bm') : bm'.capacity = bm.capacity := by
  unfold Bitmap.set at h
  by_cases hc : bit ≥ bm.capacity
  · rw [if_pos hc] at h
    cases h
  · rw [if_neg hc] at h
    simp only [Except.ok.injEq] at h
    rw [← h]
    show (if bit ≥ bm.length then bm.resize (bit + 1) else bm).capacity = bm.capacity
    split
    · exact Bitmap.resize_capacity _ _
    · rfl

theorem Bitmap.set_ok_exists (bm : Bitmap) (bit : Nat) (h : bit < bm.capacity) :
    ∃ bm', bm.set bit = .ok bm' := by
  unfold Bitmap.set
  rw [if_neg (by omega)]
  exact ⟨_, rfl⟩

/-- What a successful `initializeNode` guarantees: the builder's counter,
flag and capacities are unchanged, and — decisively — the whole 256-bit
label and has-child extents and the is-prefix-key bit of the current node
lie within their bitmaps' capacities. -/
theorem Builder.initializeNode_ok {b b' : Builder} (h : b.initializeNode = .ok b') :
    b'.currentNodeId = b.currentNodeId ∧ b'.anyOpFailed = b.anyOpFailed ∧
    b'.labels.capacity = b.labels.capacity ∧
    b'.hasChild.capacity = b.hasChild.capacity ∧
    b'.isPrefixKey.capacity = b.isPrefixKey.capacity ∧
    b.labelOffset + 255 < b.labels.capacity ∧
    b.hasChildOffset + 255 < b.hasChild.capacity ∧
    b.isPrefixKeyOffset < b.isPrefixKey.capacity := by
  unfold Builder.initializeNode at h
  rcases h1 : b.labels.get (b.labelOffset + 255) with e | ⟨lab, v1⟩ <;> rw [h1] at h
  · cases h
  rcases h2 : b.hasChild.get (b.hasChildOffset + 255) with e | ⟨hc, v2⟩ <;> rw [h2] at h
  · cases h
  rcases h3 : b.isPrefixKey.get b.isPrefixKeyOffset with e | ⟨ipk, v3⟩ <;> rw [h3] at h
  · cases h
  obtain ⟨hc1, hb1⟩ := Bitmap.get_ok_capacity _ _ h1
  obtain ⟨hc2, hb2⟩ := Bitmap.get_ok_capacity _ _ h2
  obtain ⟨hc3, hb3⟩ := Bitmap.get_ok_capacity _ _ h3
  simp only [Except.ok.injEq] at h
  subst h
  exact ⟨rfl, rfl, hc1, hc2, hc3, by omega, by omega, by omega⟩

/-- Bytes read from keys by the builder (with the out-of-range default 0)
are valid edge values below 256. -/
theorem edge_lt_256 (k : Key) (depth : Nat) (h : ∀ x ∈ k, x < 256) :
    k.getD depth 0 < 256 := by
  rcases Nat.lt_or_ge depth k.length with hd | hd
  · rw [getD_eq_getElem k 0 depth hd]
    exact h _ (List.getElem_mem hd)
  · rw [List.getD_eq_getElem?_getD, List.getElem?_eq_none (by omega)]
    simp

theorem mem_modifyLast {α : Type} {f : α → α} : ∀ {l : List α} {t : α},
    t ∈ modifyLast f l → t ∈ l ∨ ∃ t₀, t₀ ∈ l ∧ t = f t₀ := by
  intro l
  induction l with
  | nil => intro t ht; cases ht
  | cons x xs ih =>
    intro t ht
    cases xs with
    | nil =>
      simp only [modifyLast, List.mem_singleton] at ht
      exact Or.inr ⟨x, by simp, ht⟩
    | cons y ys =>
      simp only [modifyLast, List.mem_cons] at ht
      rcases ht with h | h
      · exact Or.inl (by simp [h])
      · rcases ih h with h' | ⟨t₀, ht₀, rfl⟩
        · exact Or.inl (by simp [h'])
        · exact Or.inr ⟨t₀, by simp [ht₀], rfl⟩

theorem tasksWF_nil : TasksWF [] := by
  intro t ht
  cases ht

theorem tasksWF_append {l₁ l₂ : List NodeTask} (h₁ : TasksWF l₁) (h₂ : TasksWF l₂) :
    TasksWF (l₁ ++ l₂) := by
  intro t ht
  rcases List.mem_append.mp ht with h | h
  · exact h₁ t h
  · exact h₂ t h

theorem tasksWF_append_task {ch : List NodeTask} (h : TasksWF ch) :
    TasksWF (ch ++ [⟨[], false⟩]) := by
  refine tasksWF_append h ?_
  intro t ht k hk
  simp only [List.mem_singleton] at ht
  subst ht
  cases hk

theorem tasksWF_modifyLast_prefixKey {ch : List NodeTask} (h : TasksWF ch) :
    TasksWF (modifyLast (fun t => { t with isPrefixKey := true }) ch) := by
  intro t ht k hk x hx
  rcases mem_modifyLast ht with h1 | ⟨t₀, ht₀, rfl⟩
  · exact h t h1 k hk x hx
  · exact h t₀ ht₀ k hk x hx

theorem tasksWF_modifyLast_push {ch : List NodeTask} {key : Key}
    (h : TasksWF ch) (hk : ∀ x ∈ key, x < 256) :
    TasksWF (modifyLast (fun t => { t with keys := t.keys ++ [key] }) ch) := by
  intro t ht k hkt x hx
  rcases mem_modifyLast ht with h1 | ⟨t₀, ht₀, rfl⟩
  · exact h t h1 k hkt x hx
  · rcases List.mem_append.mp hkt with h2 | h2
    · exact h t₀ ht₀ k h2 x hx
    · simp only [List.mem_singleton] at h2
      subst h2
      exact hk x hx

/-- The per-key loop of `Build` never takes the swallowed-error branch
(the `return nil` after a failed `setHasChild`) as long as the node's
256-bit has-child extent fits the capacity — which `initializeNode`
established — and every reported exit carries a real error; a successful
pass leaves the flag, the node counter and all capacities unchanged and
produces a wellformed child-task list. -/
theorem buildKeys_no_swallow (depth : Nat) :
    ∀ (keysArg : List Key) (b : Builder) (he : Bool) (mre : Nat) (ch : List NodeTask),
      (∀ k ∈ keysArg, ∀ x ∈ k, x < 256) →
      b.currentNodeId * 256 + 255 < b.hasChild.capacity →
      TasksWF ch →
      (∀ x bb, buildKeys depth b he mre ch keysArg = .error (x, bb) →
        x ≠ BuildExit.success) ∧
      (∀ b' ch', buildKeys depth b he mre ch keysArg = .ok (b', ch') →
        b'.anyOpFailed = b.anyOpFailed ∧
        b'.currentNodeId = b.currentNodeId ∧
        b'.labels.capacity = b.labels.capacity ∧
        b'.hasChild.capacity = b.hasChild.capacity ∧
        b'.isPrefixKey.capacity = b.isPrefixKey.capacity ∧
        TasksWF ch') := by
  intro keysArg
  induction keysArg with
  | nil =>
    intro b he mre ch _ _ hch
    refine ⟨?_, ?_⟩
    · intro x bb hx
      simp only [buildKeys] at hx
      cases hx
    · intro b' ch' hok
      simp only [buildKeys, Except.ok.injEq, Prod.mk.injEq] at hok
      obtain ⟨rfl, rfl⟩ := hok
      exact ⟨rfl, rfl, rfl, rfl, rfl, hch⟩
  | cons key rest ih =>
    intro b he mre ch hkb hcap hch
    have hkey : ∀ x ∈ key, x < 256 := hkb key (by simp)
    have hrest : ∀ k ∈ rest, ∀ x ∈ k, x < 256 := fun k hk => hkb k (by simp [hk])
    have hedge : key.getD depth 0 < 256 := edge_lt_256 key depth hkey
    suffices KEY : ∀ r, buildKeys depth b he mre ch (key :: rest) = r →
        ((∀ x bb, r = .error (x, bb) → x ≠ BuildExit.success) ∧
         (∀ b' ch', r = .ok (b', ch') →
            b'.anyOpFailed = b.anyOpFailed ∧
            b'.currentNodeId = b.currentNodeId ∧
            b'.labels.capacity = b.labels.capacity ∧
            b'.hasChild.capacity = b.hasChild.capacity ∧
            b'.isPrefixKey.capacity = b.isPrefixKey.capacity ∧
            TasksWF ch')) by
      exact ⟨fun x bb hx => (KEY _ rfl).1 x bb hx,
             fun b' ch' hok => (KEY _ rfl).2 b' ch' hok⟩
    intro r h
    simp only [buildKeys, Builder.labelOffset, Builder.hasChildOffset,
      Builder.opFailed] at h
    by_cases hnew : ¬he = true ∨ mre ≠ key.getD depth 0
    · rw [if_pos hnew] at h
      rcases hset : b.labels.set (b.currentNodeId * 256 + key.getD depth 0) with e | lab
      · rw [hset] at h
        dsimp only at h
        subst h
        refine ⟨?_, ?_⟩
        · intro x bb hx
          simp only [Except.error.injEq, Prod.mk.injEq] at hx
          obtain ⟨h1, -⟩ := hx
          subst h1
          intro hcon
          cases hcon
        · intro b' ch' hok
          cases hok
      · rw [hset] at h
        dsimp only at h
        by_cases hd : depth = key.length - 1
        · rw [if_pos hd] at h
          subst h
          obtain ⟨IH1, IH2⟩ := ih { b with labels := lab } true (key.getD depth 0)
            (modifyLast (fun t => { t with isPrefixKey := true }) (ch ++ [⟨[], false⟩]))
            hrest hcap (tasksWF_modifyLast_prefixKey (tasksWF_append_task hch))
          refine ⟨IH1, ?_⟩
          intro b' ch' hok
          obtain ⟨p1, p2, p3, p4, p5, p6⟩ := IH2 b' ch' hok
          refine ⟨p1, p2, ?_, p4, p5, p6⟩
          rw [p3]
          exact Bitmap.set_ok_capacity _ _ hset
        · rw [if_neg hd] at h
          obtain ⟨hc', hset2⟩ := Bitmap.set_ok_exists b.hasChild
            (b.currentNodeId * 256 + key.getD depth 0) (by omega)
          rw [hset2] at h
          dsimp only at h
          subst h
          obtain ⟨IH1, IH2⟩ := ih { b with labels := lab, hasChild := hc' } true
            (key.getD depth 0)
            (modifyLast (fun t => { t with keys := t.keys ++ [key] }) (ch ++ [⟨[], false⟩]))
            hrest
            (by
              show b.currentNodeId * 256 + 255 < hc'.capacity
              have := Bitmap.set_ok_capacity _ _ hset2
              omega)
            (tasksWF_modifyLast_push (tasksWF_append_task hch) hkey)
          refine ⟨IH1, ?_⟩
          intro b' ch' hok
          obtain ⟨p1, p2, p3, p4, p5, p6⟩ := IH2 b' ch' hok
          refine ⟨p1, p2, ?_, ?_, p5, p6⟩
          · rw [p3]
            exact Bitmap.set_ok_capacity _ _ hset
          · rw [p4]
            show hc'.capacity = b.hasChild.capacity
            exact Bitmap.set_ok_capacity _ _ hset2
    · rw [if_neg hnew] at h
      dsimp only at h
      by_cases hd : depth = key.length - 1
      · rw [if_pos hd] at h
        subst h
        exact ⟨(ih b true mre
            (modifyLast (fun t => { t with isPrefixKey := true }) ch)
            hrest hcap (tasksWF_modifyLast_prefixKey hch)).1,
          (ih b true mre
            (modifyLast (fun t => { t with isPrefixKey := true }) ch)
            hrest hcap (tasksWF_modifyLast_prefixKey hch)).2⟩
      · rw [if_neg hd] at h
        obtain ⟨hc', hset2⟩ := Bitmap.set_ok_exists b.hasChild
          (b.currentNodeId * 256 + key.getD depth 0) (by omega)
        rw [hset2] at h
        dsimp only at h
        subst h
        obtain ⟨IH1, IH2⟩ := ih { b with hasChild := hc' } true mre
          (modifyLast (fun t => { t with keys := t.keys ++ [key] }) ch)
          hrest
          (by
            show b.currentNodeId * 256 + 255 < hc'.capacity
            have := Bitmap.set_ok_capacity _ _ hset2
            omega)
          (tasksWF_modifyLast_push hch hkey)
        refine ⟨IH1, ?_⟩
        intro b' ch' hok
        obtain ⟨p1, p2, p3, p4, p5, p6⟩ := IH2 b' ch' hok
        refine ⟨p1, p2, p3, ?_, p5, p6⟩
        rw [p4]
        show hc'.capacity = b.hasChild.capacity
        exact Bitmap.set_ok_capacity _ _ hset2

end Surf
namespace Surf

/-- A single task of `Build` either reports a real error or succeeds with
the failure flag, the capacities and the task wellformedness preserved:
the two places where the Go code ignores a bitmap error (`setIsPrefixKey`,
whose result is discarded, and `setHasChild`, where `Build` returns `nil`)
are unreachable because `initializeNode` has just allocated the node's
full extents. -/
theorem buildTask_no_swallow (depth : Nat) (b : Builder) (task : NodeTask)
    (hkb : ∀ k ∈ task.keys, ∀ x ∈ k, x < 256) :
    (∀ x bb, buildTask depth b task = .error (x, bb) → x ≠ BuildExit.success) ∧
    (∀ b' ch', buildTask depth b task = .ok (b', ch') →
      b'.anyOpFailed = b.anyOpFailed ∧
      b'.labels.capacity = b.labels.capacity ∧
      b'.hasChild.capacity = b.hasChild.capacity ∧
      b'.isPrefixKey.capacity = b.isPrefixKey.capacity ∧
      TasksWF ch') := by
  suffices KEY : ∀ r, buildTask depth b task = r →
      ((∀ x bb, r = .error (x, bb) → x ≠ BuildExit.success) ∧
       (∀ b' ch', r = .ok (b', ch') →
          b'.anyOpFailed = b.anyOpFailed ∧
          b'.labels.capacity = b.labels.capacity ∧
          b'.hasChild.capacity = b.hasChild.capacity ∧
          b'.isPrefixKey.capacity = b.isPrefixKey.capacity ∧
          TasksWF ch')) by
    exact ⟨fun x bb hx => (KEY _ rfl).1 x bb hx,
           fun b' ch' hok => (KEY _ rfl).2 b' ch' hok⟩
  intro r h
  simp only [buildTask] at h
  by_cases ht : task.keys = []
  · rw [if_pos ht] at h
    subst h
    refine ⟨?_, ?_⟩
    · intro x bb hx
      cases hx
    · intro b' ch' hok
      simp only [Except.ok.injEq, Prod.mk.injEq] at hok
      obtain ⟨rfl, rfl⟩ := hok
      exact ⟨rfl, rfl, rfl, rfl, tasksWF_nil⟩
  · rw [if_neg ht] at h
    rcases hinit : b.initializeNode with e | b₁
    · rw [hinit] at h
      dsimp only at h
      subst h
      refine ⟨?_, ?_⟩
      · intro x bb hx
        simp only [Except.error.injEq, Prod.mk.injEq] at hx
        obtain ⟨h1, -⟩ := hx
        subst h1
        intro hcon
        cases hcon
      · intro b' ch' hok
        cases hok
    · rw [hinit] at h
      dsimp only at h
      obtain ⟨q1, q2, q3, q4, q5, q6, q7, q8⟩ := Builder.initializeNode_ok hinit
      have q7' : b.currentNodeId * 256 + 255 < b.hasChild.capacity := q7
      have q8' : b.currentNodeId < b.isPrefixKey.capacity := q8
      by_cases hp : task.isPrefixKey = true
      · rw [if_pos hp] at h
        obtain ⟨ipk', hset⟩ := Bitmap.set_ok_exists b₁.isPrefixKey b₁.isPrefixKeyOffset
          (by
            show b₁.currentNodeId < b₁.isPrefixKey.capacity
            omega)
        rw [hset] at h
        dsimp only at h
        obtain ⟨K1, K2⟩ := buildKeys_no_swallow depth task.keys
          { b₁ with isPrefixKey := ipk' } false 0 [] hkb
          (by
            show b₁.currentNodeId * 256 + 255 < b₁.hasChild.capacity
            omega)
          tasksWF_nil
        rcases hbk : buildKeys depth { b₁ with isPrefixKey := ipk' } false 0 [] task.keys
          with ⟨x1, bb1⟩ | ⟨b₃, ch₃⟩
        · rw [hbk] at h
          dsimp only at h
          subst h
          refine ⟨?_, ?_⟩
          · intro x bb hx
            simp only [Except.error.injEq, Prod.mk.injEq] at hx
            obtain ⟨h1, -⟩ := hx
            subst h1
            exact K1 x1 bb1 hbk
          · intro b' ch' hok
            cases hok
        · rw [hbk] at h
          dsimp only at h
          subst h
          refine ⟨?_, ?_⟩
          · intro x bb hx
            cases hx
          · intro b' ch' hok
            simp only [Except.ok.injEq, Prod.mk.injEq] at hok
            obtain ⟨rfl, rfl⟩ := hok
            obtain ⟨p1, p2, p3, p4, p5, p6⟩ := K2 b₃ ch₃ hbk
            have p1' : b₃.anyOpFailed = b₁.anyOpFailed := p1
            have p3' : b₃.labels.capacity = b₁.labels.capacity := p3
            have p4' : b₃.hasChild.capacity = b₁.hasChild.capacity := p4
            have p5' : b₃.isPrefixKey.capacity = ipk'.capacity := p5
            have hipkc : ipk'.capacity = b₁.isPrefixKey.capacity :=
              Bitmap.set_ok_capacity _ _ hset
            refine ⟨?_, ?_, ?_, ?_, p6⟩
            · show b₃.anyOpFailed = b.anyOpFailed
              rw [p1', q2]
            · show b₃.labels.capacity = b.labels.capacity
              omega
            · show b₃.hasChild.capacity = b.hasChild.capacity
              omega
            · show b₃.isPrefixKey.capacity = b.isPrefixKey.capacity
              omega
      · rw [if_neg hp] at h
        obtain ⟨K1, K2⟩ := buildKeys_no_swallow depth task.keys b₁ false 0 [] hkb
          (by
            show b₁.currentNodeId * 256 + 255 < b₁.hasChild.capacity
            omega)
          tasksWF_nil
        rcases hbk : buildKeys depth b₁ false 0 [] task.keys
          with ⟨x1, bb1⟩ | ⟨b₃, ch₃⟩
        · rw [hbk] at h
          dsimp only at h
          subst h
          refine ⟨?_, ?_⟩
          · intro x bb hx
            simp only [Except.error.injEq, Prod.mk.injEq] at hx
            obtain ⟨h1, -⟩ := hx
            subst h1
            exact K1 x1 bb1 hbk
          · intro b' ch' hok
            cases hok
        · rw [hbk] at h
          dsimp only at h
          subst h
          refine ⟨?_, ?_⟩
          · intro x bb hx
            cases hx
          · intro b' ch' hok
            simp only [Except.ok.injEq, Prod.mk.injEq] at hok
            obtain ⟨rfl, rfl⟩ := hok
            obtain ⟨p1, p2, p3, p4, p5, p6⟩ := K2 b₃ ch₃ hbk
            refine ⟨?_, ?_, ?_, ?_, p6⟩
            · show b₃.anyOpFailed = b.anyOpFailed
              rw [p1, q2]
            · show b₃.labels.capacity = b.labels.capacity
              rw [p3, q3]
            · show b₃.hasChild.capacity = b.hasChild.capacity
              rw [p4, q4]
            · show b₃.isPrefixKey.capacity = b.isPrefixKey.capacity
              rw [p5, q5]

/-- One whole level of `Build` reports every failure and otherwise
preserves the flag, the capacities and the wellformedness of the
collected next-level tasks. -/
theorem buildLevel_no_swallow (depth : Nat) :
    ∀ (tasks : List NodeTask) (b : Builder) (acc : List NodeTask),
      TasksWF tasks →
      TasksWF acc →
      (∀ x bb, buildLevel depth b acc tasks = .error (x, bb) →
        x ≠ BuildExit.success) ∧
      (∀ b' next, buildLevel depth b acc tasks = .ok (b', next) →
        b'.anyOpFailed = b.anyOpFailed ∧
        b'.labels.capacity = b.labels.capacity ∧
        b'.hasChild.capacity = b.hasChild.capacity ∧
        b'.isPrefixKey.capacity = b.isPrefixKey.capacity ∧
        TasksWF next) := by
  intro tasks
  induction tasks with
  | nil =>
    intro b acc _ hacc
    refine ⟨?_, ?_⟩
    · intro x bb hx
      simp only [buildLevel] at hx
      cases hx
    · intro b' next hok
      simp only [buildLevel, Except.ok.injEq, Prod.mk.injEq] at hok
      obtain ⟨rfl, rfl⟩ := hok
      exact ⟨rfl, rfl, rfl, rfl, hacc⟩
  | cons t ts ih =>
    intro b acc hwf hacc
    have hwt : ∀ k ∈ t.keys, ∀ x ∈ k, x < 256 := hwf t (by simp)
    have hwts : TasksWF ts := fun t' ht' => hwf t' (by simp [ht'])
    suffices KEY : ∀ r, buildLevel depth b acc (t :: ts) = r →
        ((∀ x bb, r = .error (x, bb) → x ≠ BuildExit.success) ∧
         (∀ b' next, r = .ok (b', next) →
            b'.anyOpFailed = b.anyOpFailed ∧
            b'.labels.capacity = b.labels.capacity ∧
            b'.hasChild.capacity = b.hasChild.capacity ∧
            b'.isPrefixKey.capacity = b.isPrefixKey.capacity ∧
            TasksWF next)) by
      exact ⟨fun x bb hx => (KEY _ rfl).1 x bb hx,
             fun b' next hok => (KEY _ rfl).2 b' next hok⟩
    intro r h
    simp only [buildLevel] at h
    rcases hbt : buildTask depth b t with ⟨x1, bb1⟩ | ⟨b₁, children⟩
    · rw [hbt] at h
      dsimp only at h
      subst h
      refine ⟨?_, ?_⟩
      · intro x bb hx
        simp only [Except.error.injEq, Prod.mk.injEq] at hx
        obtain ⟨h1, -⟩ := hx
        subst h1
        exact (buildTask_no_swallow depth b t hwt).1 x1 bb1 hbt
      · intro b' next hok
        cases hok
    · rw [hbt] at h
      dsimp only at h
      subst h
      obtain ⟨p1, p2, p3, p4, p5⟩ := (buildTask_no_swallow depth b t hwt).2 b₁ children hbt
      obtain ⟨L1, L2⟩ := ih b₁ (acc ++ children) hwts (tasksWF_append hacc p5)
      refine ⟨L1, ?_⟩
      intro b' next hok
      obtain ⟨m1, m2, m3, m4, m5⟩ := L2 b' next hok
      exact ⟨by rw [m1, p1], by rw [m2, p2], by rw [m3, p3], by rw [m4, p4], m5⟩

/-- The level loop of `Build`: if it terminates with a `nil` error, no
bitmap operation along the way failed (the failure flag is untouched). -/
theorem buildLoop_no_swallow :
    ∀ (levels depth : Nat) (b : Builder) (tasks : List NodeTask),
      TasksWF tasks →
      (buildLoop b tasks depth levels).2 = none →
      (buildLoop b tasks depth levels).1.anyOpFailed = b.anyOpFailed := by
  intro levels
  induction levels with
  | zero =>
    intro depth b tasks _ _
    rfl
  | succ n ih =>
    intro depth b tasks hwf hnone
    rcases hlv : buildLevel depth b [] tasks with ⟨x, bb⟩ | ⟨b₁, next⟩
    · rcases x with e | hsucc
      · have hEq : buildLoop b tasks depth (n + 1) = (bb, some e) := by
          simp only [buildLoop, hlv]
        rw [hEq] at hnone
        exact absurd hnone (by simp)
      · exact absurd rfl
          ((buildLevel_no_swallow depth tasks b [] hwf tasksWF_nil).1 _ bb hlv)
    · have hEq : buildLoop b tasks depth (n + 1) = buildLoop b₁ next (depth + 1) n := by
        simp only [buildLoop, hlv]
      rw [hEq] at hnone ⊢
      obtain ⟨p1, p2, p3, p4, p5⟩ :=
        (buildLevel_no_swallow depth tasks b [] hwf tasksWF_nil).2 b₁ next hlv
      rw [ih (depth + 1) b₁ next p5 hnone]
      exact p1

end Surf
namespace Surf

/-- **C8** (Build failure on budget exhaustion): whenever any internal
bitmap `Set` or `Get` performed during `Build` fails — which the ghost
flag `anyOpFailed` records, including the `setHasChild` failure whose
error the code discards with `return nil` and the ignored result of
`setIsPrefixKey` — `Build` returns a non-nil wrapped error; it never
returns success after such an allocation failure.  The byte hypothesis
reflects the Go type of keys (`[]byte`).  The two swallowed-error sites
are proved unreachable: `initializeNode` has already allocated the full
256-bit extents of the current node, so the only operations that can fail
are `initializeNode` itself and `addEdge`, and both propagate their
errors. -/
theorem c8_build_failure_reported (keys : List Key) (memoryLimit : Nat)
    (hbytes : ∀ k ∈ keys, ∀ x ∈ k, x < 256)
    (hfail : ((newBuilder memoryLimit).build keys).1.anyOpFailed = true) :
    (((newBuilder memoryLimit).build keys).2).isSome = true := by
  rcases hres : ((newBuilder memoryLimit).build keys).2 with _ | e
  · exfalso
    have hwf : TasksWF [⟨keys, false⟩] := by
      intro t ht k hk x hx
      simp only [List.mem_singleton] at ht
      subst ht
      exact hbytes k hk x hx
    have hflag := buildLoop_no_swallow (maxKeyLength keys) 0 (newBuilder memoryLimit)
      [⟨keys, false⟩] hwf hres
    have hnb : (newBuilder memoryLimit).anyOpFailed = false := rfl
    have hflag' : ((newBuilder memoryLimit).build keys).1.anyOpFailed =
        (newBuilder memoryLimit).anyOpFailed := hflag
    rw [hfail, hnb] at hflag'
    cases hflag'
  · rfl

set_option maxRecDepth 1000000
set_option maxHeartbeats 2000000

/-- Witness for C8: with a budget of 513 bits (one node), building the
keys `[0,1]` and `[0,2]` exhausts the capacity at the second node; the
ghost flag records the failed operation and `Build` indeed returns an
error. -/
theorem c8_build_failure_reported_witness :
    (∀ k ∈ ([[0, 1], [0, 2]] : List Key), ∀ x ∈ k, x < 256) ∧
    ((newBuilder 513).build [[0, 1], [0, 2]]).1.anyOpFailed = true ∧
    (((newBuilder 513).build [[0, 1], [0, 2]]).2).isSome = true :=
  ⟨by decide, by decide,
   c8_build_failure_reported [[0, 1], [0, 2]] 513 (by decide) (by decide)⟩

end Surf
namespace Surf

/-! ## Toolkit: sorted-list combinatorics for the trie levels -/

theorem lexLe_antisymm {a b : Key} (h1 : lexLe a b) (h2 : lexLe b a) : a = b := by
  rcases h1 with h1 | rfl
  · rcases h2 with h2 | rfl
    · have := Key.less_asymm h1
      rw [h2] at this
      cases this
    · rfl
  · rfl

theorem mem_dedupAdjacent {α : Type} [DecidableEq α] (x : α) :
    ∀ l : List α, x ∈ dedupAdjacent l ↔ x ∈ l := by
  intro l
  induction l with
  | nil => simp [dedupAdjacent]
  | cons p l ih =>
    cases l with
    | nil => simp [dedupAdjacent]
    | cons q rest =>
      simp only [dedupAdjacent]
      split
      · next h =>
        subst h
        rw [ih]
        simp only [List.mem_cons]
        tauto
      · next h =>
        simp only [List.mem_cons]
        rw [ih]
        simp only [List.mem_cons]

theorem dedupAdjacent_sublist {α : Type} [DecidableEq α] :
    ∀ l : List α, List.Sublist (dedupAdjacent l) l := by
  intro l
  induction l with
  | nil => exact List.Sublist.refl _
  | cons p l ih =>
    cases l with
    | nil => exact List.Sublist.refl _
    | cons q rest =>
      simp only [dedupAdjacent]
      split
      · exact List.Sublist.cons _ ih
      · exact List.Sublist.cons₂ _ ih

theorem dedupAdjacent_nodup {α : Type} [DecidableEq α] {R : α → α → Prop}
    (hanti : ∀ a b, R a b → R b a → a = b) :
    ∀ l : List α, l.Pairwise R → (dedupAdjacent l).Nodup := by
  intro l
  induction l with
  | nil => intro _; exact List.nodup_nil
  | cons p l ih =>
    cases l with
    | nil => intro _; simp [dedupAdjacent]
    | cons q rest =>
      intro hp
      simp only [dedupAdjacent]
      split
      · next h => exact ih (List.Pairwise.of_cons hp)
      · next h =>
        rw [List.nodup_cons]
        refine ⟨?_, ih (List.Pairwise.of_cons hp)⟩
        intro hmem
        rw [mem_dedupAdjacent] at hmem
        rcases List.mem_cons.mp hmem with rfl | hmem'
        · exact h rfl
        · have h1 : R q p := (List.pairwise_cons.mp (List.Pairwise.of_cons hp)).1 p hmem'
          have h2 : R p q := (List.pairwise_cons.mp hp).1 q (by simp)
          exact h (hanti p q h2 h1)

theorem dedupAdjacent_all_eq {α : Type} [DecidableEq α] (a : α) :
    ∀ u : List α, (∀ x ∈ u, x = a) → u ≠ [] → dedupAdjacent u = [a] := by
  intro u
  induction u with
  | nil => intro _ hne; exact absurd rfl hne
  | cons x u ih =>
    intro hall _
    have hx : x = a := hall x (by simp)
    cases u with
    | nil => simp [dedupAdjacent, hx]
    | cons y rest =>
      have hy : y = a := hall y (by simp)
      have hstep : dedupAdjacent (x :: y :: rest) = dedupAdjacent (y :: rest) := by
        simp only [dedupAdjacent]
        rw [if_pos (hx.trans hy.symm)]
      rw [hstep]
      exact ih (fun z hz => hall z (by simp [hz])) (by simp)

theorem dedupAdjacent_append_ne {α : Type} [DecidableEq α] :
    ∀ (u v : List α), (∀ a b, u.getLast? = some a → v.head? = some b → a ≠ b) →
    dedupAdjacent (u ++ v) = dedupAdjacent u ++ dedupAdjacent v := by
  intro u
  induction u with
  | nil => intro v _; simp [dedupAdjacent]
  | cons a u ih =>
    cases u with
    | nil =>
      intro v hne
      cases v with
      | nil => simp [dedupAdjacent]
      | cons b v' =>
        have hab : a ≠ b := hne a b rfl rfl
        show dedupAdjacent (a :: b :: v') = dedupAdjacent [a] ++ dedupAdjacent (b :: v')
        simp only [dedupAdjacent, if_neg hab]
        rfl
    | cons a₂ u' =>
      intro v hne
      have hne' : ∀ x y, (a₂ :: u').getLast? = some x → v.head? = some y → x ≠ y := by
        intro x y hx hy
        exact hne x y (by rw [List.getLast?_cons_cons]; exact hx) hy
      by_cases h : a = a₂
      · show dedupAdjacent (a :: a₂ :: (u' ++ v)) =
          dedupAdjacent (a :: a₂ :: u') ++ dedupAdjacent v
        simp only [dedupAdjacent, if_pos h]
        exact ih v hne'
      · show dedupAdjacent (a :: a₂ :: (u' ++ v)) =
          dedupAdjacent (a :: a₂ :: u') ++ dedupAdjacent v
        simp only [dedupAdjacent, if_neg h]
        rw [List.cons_append]
        congr 1
        exact ih v hne'

theorem dedupAdjacent_group {α : Type} [DecidableEq α] (a : α) (u v : List α)
    (hu : ∀ x ∈ u, x = a) (hune : u ≠ [])
    (hv : ∀ b, v.head? = some b → b ≠ a) :
    dedupAdjacent (u ++ v) = a :: dedupAdjacent v := by
  have hlast : ∀ x y, u.getLast? = some x → v.head? = some y → x ≠ y := by
    intro x y hx hy
    have hmem : x ∈ u := by
      rw [List.getLast?_eq_getLast u hune] at hx
      cases hx
      exact List.getLast_mem hune
    rw [hu x hmem]
    exact fun hcon => hv y hy hcon.symm
  rw [dedupAdjacent_append_ne u v hlast, dedupAdjacent_all_eq a u hu hune]
  rfl

theorem pairwise_sublist_of_subset {α : Type} {R : α → α → Prop}
    (hasymm : ∀ a b, R a b → ¬R b a) :
    ∀ (v u : List α), u.Pairwise R → v.Pairwise R → (∀ x ∈ u, x ∈ v) →
      List.Sublist u v := by
  intro v
  induction v with
  | nil =>
    intro u _ _ hsub
    cases u with
    | nil => exact List.Sublist.refl _
    | cons a u' => exact absurd (hsub a (by simp)) (by simp)
  | cons b v' ih =>
    intro u hu hv hsub
    cases u with
    | nil => exact List.nil_sublist _
    | cons a u' =>
      by_cases hab : a = b
      · subst hab
        refine List.Sublist.cons₂ a (ih u' (List.Pairwise.of_cons hu)
          (List.Pairwise.of_cons hv) ?_)
        intro x hx
        have hmem : x ∈ a :: v' := hsub x (by simp [hx])
        rcases List.mem_cons.mp hmem with rfl | h
        · exact absurd ((List.pairwise_cons.mp hu).1 x hx)
            (fun hc => hasymm x x hc hc)
        · exact h
      · refine List.Sublist.cons b (ih (a :: u') hu (List.Pairwise.of_cons hv) ?_)
        intro x hx
        have hmem : x ∈ b :: v' := hsub x hx
        rcases List.mem_cons.mp hmem with rfl | h
        · exfalso
          rcases List.mem_cons.mp (hsub a (by simp)) with rfl | ha
          · exact hab rfl
          · have h1 : R x a := (List.pairwise_cons.mp hv).1 a ha
            rcases List.mem_cons.mp hx with rfl | hx'
            · exact hab rfl
            · have h2 : R a x := (List.pairwise_cons.mp hu).1 x hx'
              exact hasymm a x h2 h1
        · exact h

theorem flatMap_sublist_eq {α β : Type} (f : α → List β) :
    ∀ {u v : List α}, List.Sublist u v → v.Nodup → (∀ x ∈ v, x ∉ u → f x = []) →
    v.flatMap f = u.flatMap f := by
  intro u v h
  induction h with
  | slnil => intro _ _; rfl
  | @cons u' v' a h ih =>
    intro hnd hnil
    have ha : a ∉ u' := by
      intro hcon
      exact (List.nodup_cons.mp hnd).1 (h.subset hcon)
    rw [List.flatMap_cons, hnil a (by simp) ha, List.nil_append]
    exact ih (List.nodup_cons.mp hnd).2 (fun x hx hnx => hnil x (by simp [hx]) hnx)
  | @cons₂ u' v' a h ih =>
    intro hnd hnil
    rw [List.flatMap_cons, List.flatMap_cons]
    congr 1
    refine ih (List.nodup_cons.mp hnd).2 ?_
    intro x hx hnx
    refine hnil x (by simp [hx]) ?_
    intro hcon
    rcases List.mem_cons.mp hcon with rfl | hc
    · exact (List.nodup_cons.mp hnd).1 hx
    · exact hnx hc

theorem eq_of_pairwise_lt_mem_iff :
    ∀ (u v : List Nat), u.Pairwise (· < ·) → v.Pairwise (· < ·) →
    (∀ x, x ∈ u ↔ x ∈ v) → u = v := by
  intro u
  induction u with
  | nil =>
    intro v _ _ hm
    cases v with
    | nil => rfl
    | cons b v' => exact absurd ((hm b).mpr (by simp)) (by simp)
  | cons a u' ih =>
    intro v hu hv hm
    cases v with
    | nil => exact absurd ((hm a).mp (by simp)) (by simp)
    | cons b v' =>
      have hab : a = b := by
        by_contra hne
        have ha : a ∈ b :: v' := (hm a).mp (by simp)
        have hb : b ∈ a :: u' := (hm b).mpr (by simp)
        rcases List.mem_cons.mp ha with h1 | h1
        · exact hne h1
        · rcases List.mem_cons.mp hb with h2 | h2
          · exact hne h2.symm
          · have hba : b < a := (List.pairwise_cons.mp hv).1 a h1
            have hab' : a < b := (List.pairwise_cons.mp hu).1 b h2
            omega
      subst hab
      congr 1
      refine ih v' (List.Pairwise.of_cons hu) (List.Pairwise.of_cons hv) ?_
      intro x
      constructor
      · intro hx
        have := (hm x).mp (by simp [hx])
        rcases List.mem_cons.mp this with rfl | h
        · exact absurd ((List.pairwise_cons.mp hu).1 x hx) (by omega)
        · exact h
      · intro hx
        have := (hm x).mpr (by simp [hx])
        rcases List.mem_cons.mp this with rfl | h
        · exact absurd ((List.pairwise_cons.mp hv).1 x hx) (by omega)
        · exact h

theorem dedupAdjacent_map_inj {α β : Type} [DecidableEq α] [DecidableEq β] (f : α → β)
    (hinj : ∀ a b, f a = f b → a = b) :
    ∀ l : List α, dedupAdjacent (l.map f) = (dedupAdjacent l).map f := by
  intro l
  induction l with
  | nil => rfl
  | cons p l ih =>
    cases l with
    | nil => rfl
    | cons q rest =>
      simp only [List.map_cons, dedupAdjacent]
      by_cases h : p = q
      · rw [if_pos (by rw [h]), if_pos h]
        simpa using ih
      · rw [if_neg (fun hc => h (hinj _ _ hc)), if_neg h]
        simp only [List.map_cons]
        simpa using ih

theorem less_take_mono : ∀ (d : Nat) (a b : Key), Key.less a b = true →
    Key.less (a.take d) (b.take d) = true ∨ a.take d = b.take d
  | 0, _, _, _ => Or.inr rfl
  | _ + 1, [], [], h => by simp [Key.less] at h
  | _ + 1, [], _ :: _, _ => Or.inl rfl
  | _ + 1, _ :: _, [], h => by simp [Key.less] at h
  | d + 1, x :: xs, y :: ys, h => by
    rcases Key.less_cons_iff.mp h with h1 | ⟨rfl, h2⟩
    · exact Or.inl (Key.less_cons_iff.mpr (Or.inl h1))
    · rcases less_take_mono d xs ys h2 with h3 | h3
      · exact Or.inl (Key.less_cons_iff.mpr (Or.inr ⟨rfl, h3⟩))
      · exact Or.inr (by simp [List.take_succ_cons, h3])

theorem lexLe_take_mono (d : Nat) {a b : Key} (h : lexLe a b) :
    lexLe (a.take d) (b.take d) := by
  rcases h with h | rfl
  · exact less_take_mono d a b h
  · exact Or.inr rfl

end Surf
namespace Surf

theorem head_dropWhile_ne {α : Type} (p : α → Bool) :
    ∀ (l : List α) {b : α}, (l.dropWhile p).head? = some b → p b = false := by
  intro l
  induction l with
  | nil => intro b h; cases h
  | cons x xs ih =>
    intro b h
    rw [List.dropWhile_cons] at h
    split at h
    · exact ih h
    · next hpx =>
      cases h
      cases hv : p x with
      | true => exact absurd hv hpx
      | false => rfl

theorem mem_of_getLast?_eq {α : Type} : ∀ {l : List α} {a : α}, l.getLast? = some a → a ∈ l := by
  intro l
  induction l with
  | nil => intro a h; cases h
  | cons x xs ih =>
    intro a h
    cases xs with
    | nil =>
      cases h
      simp
    | cons y ys =>
      rw [List.getLast?_cons_cons] at h
      exact List.mem_cons.mpr (Or.inr (ih h))

theorem mem_of_head?_eq {α : Type} : ∀ {l : List α} {a : α}, l.head? = some a → a ∈ l := by
  intro l
  cases l with
  | nil => intro a h; cases h
  | cons x xs =>
    intro a h
    cases h
    simp

theorem flatMap_congr {α β : Type} {F G : α → List β} :
    ∀ {l : List α}, (∀ x ∈ l, F x = G x) → l.flatMap F = l.flatMap G := by
  intro l
  induction l with
  | nil => intro _; rfl
  | cons x xs ih =>
    intro h
    rw [List.flatMap_cons, List.flatMap_cons, h x (by simp),
      ih (fun y hy => h y (by simp [hy]))]

/-- The central grouping lemma: scanning the distinct `f`-images of a list
whose `g`-image is sorted — where `g` is a coarsening of `f` — is the same
as scanning the distinct `g`-images and, within each `g`-class, the
distinct `f`-images of that class.  (Instantiated with `f = take (d+1)`,
`g = take d`: the level-`d+1` nodes are exactly the children of the
level-`d` nodes, grouped in order.) -/
theorem dedupAdjacent_refine (f g : Key → Key) (hkey : Key → Key)
    (hfg : ∀ x, g x = hkey (f x)) :
    ∀ (N : Nat) (X : List Key), X.length ≤ N →
    (X.map g).Pairwise lexLe →
    dedupAdjacent (X.map f) =
      (dedupAdjacent (X.map g)).flatMap
        (fun p => dedupAdjacent ((X.filter (fun x => decide (g x = p))).map f)) := by
  intro N
  induction N with
  | zero =>
    intro X hlen _
    rw [List.eq_nil_of_length_eq_zero (by omega : X.length = 0)]
    rfl
  | succ N ih =>
    intro X hlen hsorted
    cases X with
    | nil => rfl
    | cons x₀ rest =>
      set P : Key → Bool := fun x => decide (g x = g x₀) with hP
      set A := (x₀ :: rest).takeWhile P with hA
      set B := (x₀ :: rest).dropWhile P with hB
      have hsplit : A ++ B = x₀ :: rest := by
        rw [hA, hB]
        exact List.takeWhile_append_dropWhile P (x₀ :: rest)
      have hAcons : ∃ A', A = x₀ :: A' := by
        rw [hA, List.takeWhile_cons, if_pos (by simp [hP])]
        exact ⟨_, rfl⟩
      have hAne : A ≠ [] := by
        obtain ⟨A', hA'⟩ := hAcons
        simp [hA']
      have hAall : ∀ a ∈ A, g a = g x₀ := by
        intro a ha
        rw [hA] at ha
        have := List.mem_takeWhile_imp ha
        simpa [hP] using this
      have hBsub : List.Sublist B (x₀ :: rest) := by
        rw [hB]
        exact List.dropWhile_sublist _
      have hBmap : (B.map g).Pairwise lexLe :=
        List.Pairwise.sublist (List.Sublist.map g hBsub) hsorted
      have hx₀le : ∀ y ∈ B, lexLe (g x₀) (g y) := by
        intro y hy
        rcases List.mem_cons.mp (hBsub.subset hy) with rfl | hy'
        · exact Or.inr rfl
        · have := (List.pairwise_cons.mp (by simpa using hsorted)).1 (g y)
            (List.mem_map.mpr ⟨y, hy', rfl⟩)
          exact this
      have hBall : ∀ b ∈ B, g b ≠ g x₀ := by
        intro b hb
        cases hBc : B with
        | nil =>
          rw [hBc] at hb
          cases hb
        | cons b₀ B' =>
          have hhead : P b₀ = false := by
            refine head_dropWhile_ne P (x₀ :: rest) ?_
            rw [← hB, hBc]
            rfl
          have hb₀ne : g b₀ ≠ g x₀ := by
            intro hcon
            rw [hP] at hhead
            simp only [decide_eq_false_iff_not] at hhead
            exact hhead hcon
          rw [hBc] at hb
          rcases List.mem_cons.mp hb with rfl | hb'
          · exact hb₀ne
          · intro hcon
            have h1 : lexLe (g b₀) (g b) := by
              rw [hBc] at hBmap
              exact (List.pairwise_cons.mp (by simpa using hBmap)).1 (g b)
                (List.mem_map.mpr ⟨b, hb', rfl⟩)
            have h2 : lexLe (g x₀) (g b₀) := hx₀le b₀ (by rw [hBc]; simp)
            rw [hcon] at h1
            exact hb₀ne (lexLe_antisymm h2 h1).symm
      have happend : dedupAdjacent ((x₀ :: rest).map f) =
          dedupAdjacent (A.map f) ++ dedupAdjacent (B.map f) := by
        rw [← hsplit, List.map_append]
        refine dedupAdjacent_append_ne _ _ ?_
        intro a b hlast hhead
        have ha : a ∈ A.map f := mem_of_getLast?_eq hlast
        have hb : b ∈ B.map f := mem_of_head?_eq hhead
        obtain ⟨xa, hxa, rfl⟩ := List.mem_map.mp ha
        obtain ⟨xb, hxb, rfl⟩ := List.mem_map.mp hb
        intro hcon
        have hgg : g xa = g xb := by rw [hfg, hfg, hcon]
        rw [hAall xa hxa] at hgg
        exact hBall xb hxb hgg.symm
      have hgroup : dedupAdjacent ((x₀ :: rest).map g) =
          g x₀ :: dedupAdjacent (B.map g) := by
        rw [← hsplit, List.map_append]
        refine dedupAdjacent_group (g x₀) _ _ ?_ ?_ ?_
        · intro z hz
          obtain ⟨xa, hxa, rfl⟩ := List.mem_map.mp hz
          exact hAall xa hxa
        · intro hcon
          rw [List.map_eq_nil] at hcon
          exact hAne hcon
        · intro b hb
          have hbB := mem_of_head?_eq hb
          obtain ⟨xb, hxb, rfl⟩ := List.mem_map.mp hbB
          exact fun hcon => hBall xb hxb hcon
      have hfilter₀ : (x₀ :: rest).filter (fun x => decide (g x = g x₀)) = A := by
        rw [← hsplit, List.filter_append]
        rw [List.filter_eq_self.mpr (by
            intro a ha
            simpa using hAall a ha),
          List.filter_eq_nil.mpr (by
            intro b hb
            simpa using hBall b hb),
          List.append_nil]
      have hfilterB : ∀ p, p ≠ g x₀ →
          (x₀ :: rest).filter (fun x => decide (g x = p)) =
          B.filter (fun x => decide (g x = p)) := by
        intro p hp
        rw [← hsplit, List.filter_append, List.filter_eq_nil.mpr (by
            intro a ha
            simp only [decide_eq_true_eq]
            rw [hAall a ha]
            exact fun hcon => hp hcon.symm),
          List.nil_append]
      have hBlen : B.length ≤ N := by
        have h1 : A.length + B.length = (x₀ :: rest).length := by
          rw [← List.length_append, hsplit]
        have h2 : 1 ≤ A.length := by
          obtain ⟨A', hA'⟩ := hAcons
          simp [hA']
        simp only [List.length_cons] at h1 hlen
        omega
      have hIH := ih B hBlen hBmap
      rw [happend, hgroup, List.flatMap_cons]
      congr 1
      · rw [hfilter₀]
      · rw [hIH]
        refine (flatMap_congr ?_).symm
        intro p hp
        rw [mem_dedupAdjacent] at hp
        obtain ⟨xb, hxb, rfl⟩ := List.mem_map.mp hp
        rw [hfilterB (g xb) (hBall xb hxb)]

end Surf
namespace Surf

theorem take_succ_getElem {α : Type} (l : List α) (n : Nat) (h : n < l.length) :
    l.take (n + 1) = l.take n ++ [l[n]] := by
  rw [List.take_succ, List.getElem?_eq_getElem h]
  rfl

theorem lexLt_of_lexLe_ne {a b : Key} (h : lexLe a b) (hne : a ≠ b) :
    Key.less a b = true := by
  rcases h with h | rfl
  · exact h
  · exact absurd rfl hne

theorem pairwise_strict_of_nodup {α : Type} {Rle Rlt : α → α → Prop}
    (h : ∀ a b, Rle a b → a ≠ b → Rlt a b) (l : List α)
    (hle : l.Pairwise Rle) (hnd : l.Nodup) : l.Pairwise Rlt :=
  (hle.and hnd).imp (fun hab => h _ _ hab.1 hab.2)

/-- On two keys that agree on their first `d` bytes, the lexicographic
order compares the bytes at position `d` first. -/
theorem less_getD_le : ∀ (d : Nat) (a b : Key), Key.less a b = true →
    a.take d = b.take d → d < a.length → d < b.length →
    a.getD d 0 ≤ b.getD d 0
  | _, [], _, _, _, ha, _ => by simp at ha
  | _, _ :: _, [], h, _, _, _ => by simp [Key.less] at h
  | 0, x :: xs, y :: ys, h, _, _, _ => by
    rcases Key.less_cons_iff.mp h with h1 | ⟨rfl, _⟩
    · simpa using Nat.le_of_lt h1
    · simp
  | d + 1, x :: xs, y :: ys, h, htake, ha, hb => by
    simp only [List.take_succ_cons, List.cons.injEq] at htake
    obtain ⟨rfl, htk⟩ := htake
    rcases Key.less_cons_iff.mp h with h1 | ⟨-, h2⟩
    · omega
    · simpa using less_getD_le d xs ys h2 htk (by simpa using ha) (by simpa using hb)

theorem mem_nodesAtLevel_length {K : List Key} {d : Nat} {p : Key}
    (h : p ∈ nodesAtLevel K d) : p.length = d := by
  unfold nodesAtLevel at h
  rw [mem_dedupAdjacent] at h
  obtain ⟨k, hk, rfl⟩ := List.mem_map.mp h
  have := List.of_mem_filter hk
  simp only [decide_eq_true_eq] at this
  simp [List.length_take]
  omega

/-- Keys of the class of a length-`d` prefix `p`, restricted to those
continuing past level `d+1`: their distinct bytes at position `d` are the
has-child edges of node `p`. -/
theorem dedup_bytes_eq_hasChildEdges (K : List Key) (d : Nat) (p : Key)
    (hsort : K.Pairwise (fun a b => Key.less a b = true))
    (hbytes : ∀ k ∈ K, ∀ x ∈ k, x < 256)
    (hp : p.length = d) :
    dedupAdjacent
        (((K.filter (fun k => decide (d + 1 < k.length))).filter
            (fun x => decide (x.take d = p))).map (fun k => k.getD d 0)) =
      hasChildEdges K p := by
  set L := (K.filter (fun k => decide (d + 1 < k.length))).filter
      (fun x => decide (x.take d = p)) with hL
  have hLfacts : ∀ k ∈ L, k ∈ K ∧ d + 1 < k.length ∧ k.take d = p := by
    intro k hk
    rw [hL] at hk
    have h1 := List.of_mem_filter hk
    have h2 := List.mem_of_mem_filter hk
    have h3 := List.of_mem_filter h2
    have h4 := List.mem_of_mem_filter h2
    simp only [decide_eq_true_eq] at h1 h3
    exact ⟨h4, h3, h1⟩
  have hLsort : L.Pairwise (fun a b => Key.less a b = true) := by
    rw [hL]
    exact List.Pairwise.sublist
      ((List.filter_sublist _).trans (List.filter_sublist _)) hsort
  have hLbytes : (L.map (fun k => k.getD d 0)).Pairwise (· ≤ ·) := by
    rw [List.pairwise_map]
    refine hLsort.imp_of_mem ?_
    intro a b ha hb hab
    obtain ⟨-, ha2, ha3⟩ := hLfacts a ha
    obtain ⟨-, hb2, hb3⟩ := hLfacts b hb
    exact less_getD_le d a b hab (ha3.trans hb3.symm) (by omega) (by omega)
  refine eq_of_pairwise_lt_mem_iff _ _ ?_ ?_ ?_
  · refine pairwise_strict_of_nodup (fun a b h1 h2 => Nat.lt_of_le_of_ne h1 h2)
      _ ?_ ?_
    · exact List.Pairwise.sublist (dedupAdjacent_sublist _) hLbytes
    · exact dedupAdjacent_nodup (fun a b h1 h2 => Nat.le_antisymm h1 h2) _ hLbytes
  · exact List.Pairwise.sublist (List.filter_sublist _) (List.pairwise_lt_range 256)
  · intro e
    rw [mem_dedupAdjacent]
    constructor
    · intro he
      obtain ⟨k, hk, rfl⟩ := List.mem_map.mp he
      obtain ⟨hkK, hklen, hktake⟩ := hLfacts k hk
      have hd : d < k.length := by omega
      have hbyte : k.getD d 0 = k[d] := getD_eq_getElem k 0 d hd
      unfold hasChildEdges
      rw [List.mem_filter]
      constructor
      · rw [List.mem_range]
        rw [hbyte]
        exact hbytes k hkK k[d] (List.getElem_mem hd)
      · unfold hasChildB
        rw [List.any_eq_true]
        refine ⟨k, hkK, ?_⟩
        rw [Bool.and_eq_true]
        constructor
        · rw [List.isPrefixOf_iff_prefix]
          have htk : k.take (d + 1) = p ++ [k.getD d 0] := by
            rw [take_succ_getElem k d hd, hktake, hbyte]
          rw [← htk]
          exact List.take_prefix _ _
        · simp only [decide_eq_true_eq]
          omega
    · intro he
      unfold hasChildEdges at he
      rw [List.mem_filter] at he
      obtain ⟨-, he2⟩ := he
      unfold hasChildB at he2
      rw [List.any_eq_true] at he2
      obtain ⟨k, hkK, hk2⟩ := he2
      rw [Bool.and_eq_true, List.isPrefixOf_iff_prefix] at hk2
      obtain ⟨hpre, hlen⟩ := hk2
      simp only [decide_eq_true_eq] at hlen
      rw [hp] at hlen
      have htake : k.take (d + 1) = p ++ [e] := by
        have h1 : (p ++ [e]).length = d + 1 := by simp [hp]
        have := List.prefix_iff_eq_take.mp hpre
        rw [h1] at this
        exact this.symm
      have hkd : d < k.length := by omega
      have htkd : k.take d = p := by
        have : (k.take (d + 1)).take d = (p ++ [e]).take d := by rw [htake]
        rw [List.take_take, Nat.min_eq_left (by omega)] at this
        rw [this, List.take_append_of_le_length (by omega), List.take_of_length_le (by omega)]
      have hbyte : k.getD d 0 = e := by
        have h1 : (k.take (d + 1)).getD d 0 = k.getD d 0 := by
          rw [List.getD_eq_getElem?_getD, List.getD_eq_getElem?_getD,
            List.getElem?_take, if_pos (by omega : d < d + 1)]
        rw [← h1, htake, List.getD_eq_getElem?_getD,
          List.getElem?_append_right (by omega)]
        simp [hp]
      refine List.mem_map.mpr ⟨k, ?_, hbyte⟩
      rw [hL]
      rw [List.mem_filter, List.mem_filter]
      refine ⟨⟨hkK, by simp; omega⟩, by simp [htkd]⟩

end Surf
namespace Surf

theorem less_asymm_prop {a b : Key} (h1 : Key.less a b = true)
    (h2 : Key.less b a = true) : False := by
  have := Key.less_asymm h1
  rw [h2] at this
  cases this

theorem nodesAtLevel_map_sorted (K : List Key) (d : Nat)
    (hsort : K.Pairwise (fun a b => Key.less a b = true)) :
    ((K.filter (fun k => decide (d < k.length))).map (fun k => k.take d)).Pairwise lexLe := by
  rw [List.pairwise_map]
  exact (List.Pairwise.sublist (List.filter_sublist _) hsort).imp
    (fun hab => less_take_mono d _ _ hab)

theorem nodesAtLevel_nodup (K : List Key) (d : Nat)
    (hsort : K.Pairwise (fun a b => Key.less a b = true)) :
    (nodesAtLevel K d).Nodup :=
  dedupAdjacent_nodup (fun _ _ h1 h2 => lexLe_antisymm h1 h2) _
    (nodesAtLevel_map_sorted K d hsort)

theorem nodesAtLevel_pairwise_less (K : List Key) (d : Nat)
    (hsort : K.Pairwise (fun a b => Key.less a b = true)) :
    (nodesAtLevel K d).Pairwise (fun a b => Key.less a b = true) :=
  pairwise_strict_of_nodup (fun _ _ h1 h2 => lexLt_of_lexLe_ne h1 h2) _
    (List.Pairwise.sublist (dedupAdjacent_sublist _) (nodesAtLevel_map_sorted K d hsort))
    (nodesAtLevel_nodup K d hsort)

/-- Level glue: the nodes of level `d+1` are exactly the has-child
children of the nodes of level `d`, enumerated in scan order. -/
theorem nodesAtLevel_succ (K : List Key) (d : Nat)
    (hsort : K.Pairwise (fun a b => Key.less a b = true))
    (hbytes : ∀ k ∈ K, ∀ x ∈ k, x < 256) :
    nodesAtLevel K (d + 1) =
      (nodesAtLevel K d).flatMap
        (fun p => (hasChildEdges K p).map (fun e => p ++ [e])) := by
  set X := K.filter (fun k => decide (d + 1 < k.length)) with hX
  have hXsub : List.Sublist X K := by
    rw [hX]
    exact List.filter_sublist _
  have hXsort : X.Pairwise (fun a b => Key.less a b = true) :=
    List.Pairwise.sublist hXsub hsort
  have hgsorted : (X.map (fun k => k.take d)).Pairwise lexLe := by
    rw [List.pairwise_map]
    exact hXsort.imp (fun hab => less_take_mono d _ _ hab)
  have hrefine := dedupAdjacent_refine (fun k => k.take (d + 1)) (fun k => k.take d)
    (fun q => q.take d)
    (fun x => (by rw [List.take_take, Nat.min_eq_left (Nat.le_succ d)] :
      (x.take (d + 1)).take d = x.take d).symm)
    X.length X (Nat.le_refl _) hgsorted
  have hsub : List.Sublist (dedupAdjacent (X.map (fun k => k.take d)))
      (nodesAtLevel K d) := by
    refine @pairwise_sublist_of_subset Key (fun a b => Key.less a b = true)
      (fun a b h1 h2 => less_asymm_prop h1 h2) (nodesAtLevel K d)
      (dedupAdjacent (X.map (fun k => k.take d))) ?_ ?_ ?_
    · exact pairwise_strict_of_nodup (fun _ _ h1 h2 => lexLt_of_lexLe_ne h1 h2) _
        (List.Pairwise.sublist (dedupAdjacent_sublist _) hgsorted)
        (dedupAdjacent_nodup (fun _ _ h1 h2 => lexLe_antisymm h1 h2) _ hgsorted)
    · exact nodesAtLevel_pairwise_less K d hsort
    · intro x hx
      rw [mem_dedupAdjacent] at hx
      obtain ⟨k, hk, rfl⟩ := List.mem_map.mp hx
      rw [hX] at hk
      have h1 := List.of_mem_filter hk
      have h2 := List.mem_of_mem_filter hk
      simp only [decide_eq_true_eq] at h1
      unfold nodesAtLevel
      rw [mem_dedupAdjacent]
      refine List.mem_map.mpr ⟨k, ?_, rfl⟩
      rw [List.mem_filter]
      exact ⟨h2, by simp; omega⟩
  have hidx : (nodesAtLevel K d).flatMap
      (fun p => dedupAdjacent
        ((X.filter (fun x => decide (x.take d = p))).map (fun k => k.take (d + 1)))) =
      (dedupAdjacent (X.map (fun k => k.take d))).flatMap
      (fun p => dedupAdjacent
        ((X.filter (fun x => decide (x.take d = p))).map (fun k => k.take (d + 1)))) := by
    refine flatMap_sublist_eq _ hsub (nodesAtLevel_nodup K d hsort) ?_
    intro p _ hnp
    cases hfe : X.filter (fun x => decide (x.take d = p)) with
    | nil => rfl
    | cons z zs =>
      exfalso
      have hz : z ∈ X.filter (fun x => decide (x.take d = p)) := by rw [hfe]; simp
      have h1 := List.of_mem_filter hz
      have h2 := List.mem_of_mem_filter hz
      simp only [decide_eq_true_eq] at h1
      refine hnp ?_
      rw [mem_dedupAdjacent]
      exact List.mem_map.mpr ⟨z, h2, h1⟩
  show dedupAdjacent (X.map (fun k => k.take (d + 1))) = _
  rw [hrefine, ← hidx]
  refine flatMap_congr ?_
  intro p hp
  have hplen : p.length = d := mem_nodesAtLevel_length hp
  have hmapeq : (X.filter (fun x => decide (x.take d = p))).map (fun k => k.take (d + 1)) =
      ((X.filter (fun x => decide (x.take d = p))).map (fun k => k.getD d 0)).map
        (fun e => p ++ [e]) := by
    rw [List.map_map]
    refine List.map_congr_left ?_
    intro k hk
    have h1 := List.of_mem_filter hk
    have h2 := List.mem_of_mem_filter hk
    simp only [decide_eq_true_eq] at h1
    rw [hX, List.mem_filter] at h2
    have h3 : d + 1 < k.length := by
      have := h2.2
      simp only [decide_eq_true_eq] at this
      exact this
    have hd : d < k.length := by omega
    show k.take (d + 1) = p ++ [k.getD d 0]
    rw [take_succ_getElem k d hd, h1, getD_eq_getElem k 0 d hd]
  rw [hmapeq, dedupAdjacent_map_inj (fun e => p ++ [e])
    (fun a b hab => by simpa using hab)]
  congr 1
  rw [hX]
  exact dedup_bytes_eq_hasChildEdges K d p hsort hbytes hplen

end Surf
